import Mathlib

/-!
# Telemetry logger of oXs_on_RP2040 (`src/logger.cpp`)

A shallow embedding of the double-buffered, byte-stuffed logger.

* Machine integers are natural numbers reduced explicitly: `uint8_t` values
  modulo `2^8`, `uint16_t` values modulo `2^16`, `uint32_t` values modulo `2^32`.
* The global variables `logBuffer`, `logLen`, `logWritingBuffer` and
  `lastLogMillis` are the fields of `State`.
* The two external collaborators are an `Env`: the millisecond clock
  `millisRp()` is a stream of readings, consumed one per call, and the DMA
  engine answers `dma_channel_is_busy` a finite number of times with "busy"
  before it answers "idle".  The calls made to the DMA engine
  (`dma_channel_set_read_addr`, `dma_channel_set_trans_count`) are recorded
  in the field `sent`, and every interaction with the engine, the answers of
  `dma_channel_is_busy` included, is recorded in order in the field `dmaLog`.
-/

namespace Logger

/-- Capacity of one slot: `#define LOG_BUFFER_LEN 512`. -/
def LOG_BUFFER_LEN : Nat := 512

/-- Longest interval between two flushes: `#define MAX_LOG_INTERVAL_MS 1000`. -/
def MAX_LOG_INTERVAL_MS : Nat := 1000

/-- The external collaborators of the logger.
`clock k` is the value returned by the `k`-th call of `millisRp()` (reduced to
32 bits when read).  `busyPolls k` is the number of times the DMA engine answers
"busy" during the `k`-th busy-wait before it answers "idle": the engine is
taken to finish every transfer eventually. -/
structure Env where
  clock : Nat → Nat
  busyPolls : Nat → Nat

/-- One transfer handed to the DMA engine: the slot whose base address was
given to `dma_channel_set_read_addr`, the count given to
`dma_channel_set_trans_count`, and the bytes that lie in that range of the
slot when the transfer is started. -/
structure Tx where
  slot : Nat
  count : Nat
  data : List Nat
  deriving DecidableEq, Repr

/-- One interaction of the logger with the DMA engine: a call of
`dma_channel_is_busy` that answered "busy", one that answered "idle", or the
start of a transfer by `dma_channel_set_trans_count(.., count, true)` after
`dma_channel_set_read_addr` was given the base of `slot`. -/
inductive DmaEvent where
  | answeredBusy
  | answeredIdle
  | started (slot count : Nat)
  deriving DecidableEq, Repr

/-- The global state of `logger.cpp`, with counters for the calls made to the
external collaborators and the log of the interactions with the DMA engine. -/
structure State where
  /-- The array `uint8_t logBuffer[2][LOG_BUFFER_LEN]`, as slot ↦ index ↦ byte. -/
  logBuffer : Nat → Nat → Nat
  /-- The write cursor `uint16_t logLen`. -/
  logLen : Nat
  /-- The active slot `uint8_t logWritingBuffer`. -/
  logWritingBuffer : Nat
  /-- The time of the last flush, `uint32_t lastLogMillis`. -/
  lastLogMillis : Nat
  /-- Number of calls of `millisRp()` made so far. -/
  ticks : Nat
  /-- Number of calls of `dma_channel_is_busy` made so far. -/
  polls : Nat
  /-- The transfers started so far, oldest first. -/
  sent : List Tx
  /-- The interactions with the DMA engine so far, in the order they were made. -/
  dmaLog : List DmaEvent

/-- The state at start-up: zeroed buffers, `logLen = 0`,
`logWritingBuffer = 0`, `lastLogMillis = 0`, nothing transmitted. -/
def init : State :=
  { logBuffer := fun _ _ => 0, logLen := 0, logWritingBuffer := 0,
    lastLogMillis := 0, ticks := 0, polls := 0, sent := [], dmaLog := [] }

/-- The call `millisRp()`: the next clock reading as a `uint32_t`. -/
def millisRp (e : Env) (s : State) : Nat × State :=
  (e.clock s.ticks % 2 ^ 32, { s with ticks := s.ticks + 1 })

/-- The assignment `logBuffer[b][i] = v`. -/
def writeCell (buf : Nat → Nat → Nat) (b i v : Nat) : Nat → Nat → Nat :=
  fun b' i' => if b' = b ∧ i' = i then v else buf b' i'

/-- The first `n` bytes of slot `b`. -/
def slotPrefix (buf : Nat → Nat → Nat) (b n : Nat) : List Nat :=
  (List.range n).map (buf b)

/-- The loop `while (dma_channel_is_busy(logger_dma_chan)) ;` when the engine
answers "busy" `n` times and then "idle": every call of `dma_channel_is_busy`
is counted and its answer logged, and the loop is left at the idle answer. -/
def waitDmaIdle : Nat → State → State
  | 0, s => { s with polls := s.polls + 1, dmaLog := s.dmaLog ++ [DmaEvent.answeredIdle] }
  | n + 1, s =>
    waitDmaIdle n { s with polls := s.polls + 1, dmaLog := s.dmaLog ++ [DmaEvent.answeredBusy] }

/-- The body of the `if` of `logByteNoStuff` (lines 96-104): wait for the DMA
engine, record the time, start the transfer of `logLen` bytes of the active
slot, switch slot and reset the cursor. -/
def flush (e : Env) (s : State) : State :=
  let s1 := waitDmaIdle (e.busyPolls s.sent.length) s
  let r := millisRp e s1
  let s2 := { r.2 with lastLogMillis := r.1 }
  let tx : Tx := { slot := s2.logWritingBuffer, count := s2.logLen,
                   data := slotPrefix s2.logBuffer s2.logWritingBuffer s2.logLen }
  let wb := (s2.logWritingBuffer + 1) % 256
  { s2 with sent := s2.sent ++ [tx],
            dmaLog := s2.dmaLog ++ [DmaEvent.started tx.slot tx.count],
            logWritingBuffer := if wb > 1 then 0 else wb,
            logLen := 0 }

/-- The unsigned 32-bit difference `a - b`. -/
def sub32 (a b : Nat) : Nat := (a % 2 ^ 32 + 2 ^ 32 - b % 2 ^ 32) % 2 ^ 32

/-- The function `LOGGER::logByteNoStuff(uint8_t c)`: store the byte at the
cursor, advance the cursor, and flush when the slot is full or, the slot not
being full, when more than `MAX_LOG_INTERVAL_MS` have passed since the last
flush (the clock is not read when the slot is full: `||` short-circuits). -/
def logByteNoStuff (e : Env) (c : Nat) (s : State) : State :=
  let s1 := { s with
    logBuffer := writeCell s.logBuffer s.logWritingBuffer s.logLen (c % 256),
    logLen := (s.logLen + 1) % 65536 }
  if s1.logLen ≥ LOG_BUFFER_LEN then flush e s1
  else
    let r := millisRp e s1
    if sub32 r.1 r.2.lastLogMillis > MAX_LOG_INTERVAL_MS then flush e r.2 else r.2

/-- The function `LOGGER::logBytewithStuff(uint8_t c)`. -/
def logBytewithStuff (e : Env) (c : Nat) (s : State) : State :=
  if c % 256 = 0x7E then
    logByteNoStuff e 0x5E (logByteNoStuff e 0x7D s)
  else if c % 256 = 0x7D then
    logByteNoStuff e 0x5D (logByteNoStuff e 0x7D s)
  else
    logByteNoStuff e (c % 256) s

/-- The function `LOGGER::logTimestampMs(uint32_t value)`; every argument is
converted to `uint8_t` by the callee. -/
def logTimestampMs (e : Env) (value : Nat) (s : State) : State :=
  let v := value % 2 ^ 32
  let s1 := logBytewithStuff e (v >>> 24) s
  let s2 := logBytewithStuff e (v >>> 16) s1
  let s3 := logBytewithStuff e (v >>> 8) s2
  logBytewithStuff e v s3

/-- The conversion `(uint8_t) (value >> k)` of an `int32_t` value: arithmetic
shift, then the low eight bits. -/
def byteOfShift (value : Int) (k : Nat) : Nat := ((value >>> k) % 256).toNat

/-- The function `LOGGER::logint32withStuff(uint8_t type, int32_t value)`.  The
masks are unsigned literals, so `value` is converted to `uint32_t` for the
tests. -/
def logint32withStuff (e : Env) (type : Nat) (value : Int) (s : State) : State :=
  let u := (value % 2 ^ 32).toNat
  if u &&& 0xFFFFFF00 = 0 then
    let s1 := logBytewithStuff e (type % 256 ||| 0xC0) s
    logBytewithStuff e (byteOfShift value 0) s1
  else if u &&& 0xFFFF0000 = 0 then
    let s1 := logBytewithStuff e (type % 256 ||| 0x80) s
    let s2 := logBytewithStuff e (byteOfShift value 8) s1
    logBytewithStuff e (byteOfShift value 0) s2
  else if u &&& 0xFF000000 = 0 then
    let s1 := logBytewithStuff e (type % 256 ||| 0x40) s
    let s2 := logBytewithStuff e (byteOfShift value 16) s1
    let s3 := logBytewithStuff e (byteOfShift value 8) s2
    logBytewithStuff e (byteOfShift value 0) s3
  else
    let s1 := logBytewithStuff e (type % 256) s
    let s2 := logBytewithStuff e (byteOfShift value 24) s1
    let s3 := logBytewithStuff e (byteOfShift value 16) s2
    let s4 := logBytewithStuff e (byteOfShift value 8) s3
    logBytewithStuff e (byteOfShift value 0) s4

/-- The RC channel source: `extern uint32_t lastRcChannels` and
`extern uint16_t rcChannelsUs[16]`, as they stand during one call. -/
structure RcSource where
  lastRcChannels : Nat
  rcChannelsUs : Nat → Nat

/-- The body of the `for` loop of `logAllRcChannels` for channel `i`. -/
def logRcChannel (e : Env) (rc : RcSource) (s : State) (i : Nat) : State :=
  let ch := rc.rcChannelsUs i % 65536
  logBytewithStuff e ch (logBytewithStuff e (ch >>> 8) s)

/-- The function `LOGGER::logAllRcChannels()`. -/
def logAllRcChannels (e : Env) (rc : RcSource) (s : State) : State :=
  if rc.lastRcChannels % 2 ^ 32 = 0 then s
  else
    let s1 := logByteNoStuff e 0x7E s
    let r := millisRp e s1
    let s2 := logTimestampMs e r.1 r.2
    let s3 := logByteNoStuff e 40 s2
    (List.range 16).foldl (logRcChannel e rc) s3

/-- The bytes handed to the transmitter so far, in the order handed over. -/
def transmitted (s : State) : List Nat :=
  (s.sent.map Tx.data).flatten

/-- The bytes waiting in the active slot: its first `logLen` bytes. -/
def pending (s : State) : List Nat :=
  slotPrefix s.logBuffer s.logWritingBuffer s.logLen

/-- The byte stream produced so far: what was handed to the transmitter
followed by what is pending in the active slot. -/
def stream (s : State) : List Nat := transmitted s ++ pending s

/-- The states between two calls: the active slot is one of the two slots and
the cursor is inside the slot. -/
def WF (s : State) : Prop := s.logWritingBuffer < 2 ∧ s.logLen < LOG_BUFFER_LEN

/-- The bytes that `logBytewithStuff` passes to `logByteNoStuff` for the byte
`c`, in order (lines 109-117 read as a list). -/
def stuff (c : Nat) : List Nat :=
  if c = 0x7E then [0x7D, 0x5E] else if c = 0x7D then [0x7D, 0x5D] else [c]

/-- The stuffed form of a sequence of logical bytes. -/
def stuffAll (S : List Nat) : List Nat := (S.map stuff).flatten

/-- Receiver side, written from the spec's words (the repository has no
decoder): the inverse escape rule, `0x7D,0x5E` gives `0x7E`, `0x7D,0x5D` gives
`0x7D`, any other byte is kept. -/
def unstuff : List Nat → List Nat
  | [] => []
  | [b] => [b]
  | a :: b :: r =>
    if a = 0x7D ∧ b = 0x5E then 0x7E :: unstuff r
    else if a = 0x7D ∧ b = 0x5D then 0x7D :: unstuff r
    else a :: unstuff (b :: r)

/-- The bytes a call appended to the stream: what the stream after the call
holds beyond the stream before it. -/
def appended (s s' : State) : List Nat := (stream s').drop (stream s).length

/-- A sequence of calls of `logByteNoStuff`, one per byte of `cs`. -/
def logBytesNoStuff (e : Env) (cs : List Nat) (s : State) : State :=
  cs.foldl (fun st c => logByteNoStuff e c st) s

/-- A sequence of calls of `logBytewithStuff`, one per byte of `S`. -/
def logBytesWithStuff (e : Env) (S : List Nat) (s : State) : State :=
  S.foldl (fun st c => logBytewithStuff e c st) s

/-- The logical bytes that `logTimestampMs` passes to `logBytewithStuff`, in
order (lines 166-169), each as converted to `uint8_t`. -/
def timestampBytes (value : Nat) : List Nat :=
  let v := value % 2 ^ 32
  [(v >>> 24) % 256, (v >>> 16) % 256, (v >>> 8) % 256, v % 256]

/-- The logical bytes that `logint32withStuff` passes to `logBytewithStuff`, in
order (lines 121-139), each as converted to `uint8_t`. -/
def int32Bytes (type : Nat) (value : Int) : List Nat :=
  let u := (value % 2 ^ 32).toNat
  if u &&& 0xFFFFFF00 = 0 then
    [(type % 256 ||| 0xC0) % 256, byteOfShift value 0]
  else if u &&& 0xFFFF0000 = 0 then
    [(type % 256 ||| 0x80) % 256, byteOfShift value 8, byteOfShift value 0]
  else if u &&& 0xFF000000 = 0 then
    [(type % 256 ||| 0x40) % 256, byteOfShift value 16, byteOfShift value 8,
      byteOfShift value 0]
  else
    [type % 256, byteOfShift value 24, byteOfShift value 16, byteOfShift value 8,
      byteOfShift value 0]

/-- The smallest of the widths 1, 2, 3, 4 whose byte count can hold `V`
(4 when none of the narrower ones can). -/
def widthOf (V : Nat) : Nat :=
  if V < 256 then 1 else if V < 256 ^ 2 then 2 else if V < 256 ^ 3 then 3 else 4

/-- The tag byte of each width class: `type|0xC0`, `type|0x80`, `type|0x40`,
`type` for 1, 2, 3, 4 payload bytes. -/
def tagOf (type n : Nat) : Nat :=
  if n = 1 then type ||| 0xC0 else if n = 2 then type ||| 0x80
  else if n = 3 then type ||| 0x40 else type

/-- The value of a byte sequence read most-significant byte first. -/
def fromBE (bs : List Nat) : Nat := bs.foldl (fun acc b => acc * 256 + b) 0

/-- The 37 logical bytes of an RC-channel frame after the start marker: the
timestamp `T` as 4 bytes most-significant first, the tag byte 40, then for
`i = 0..15` the high byte and the low byte of channel `ch i`. -/
def rcFrameBytes (T : Nat) (ch : Nat → Nat) : List Nat :=
  [T / 2 ^ 24 % 256, T / 2 ^ 16 % 256, T / 2 ^ 8 % 256, T % 256] ++ [40] ++
    ((List.range 16).map (fun i => [ch i / 2 ^ 8 % 256, ch i % 256])).flatten

/-- The timestamp that `logAllRcChannels` logs: the clock reading taken after
the start marker has been appended. -/
def rcTimestamp (e : Env) (s : State) : Nat :=
  (millisRp e (logByteNoStuff e 0x7E s)).1

/-- The transfer that a flushing call of `logByteNoStuff` hands over (lines
100-101, after the store and increment of line 86): the active slot, the
incremented cursor, and the pending bytes with the new byte behind them. -/
def flushTx (c : Nat) (s : State) : Tx :=
  { slot := s.logWritingBuffer, count := s.logLen + 1, data := pending s ++ [c % 256] }

/-- A clock that always reads 0 and a transmitter that is never found busy. -/
def quietEnv : Env := { clock := fun _ => 0, busyPolls := fun _ => 0 }

/-- A clock that reads 0 at its first reading and 2000 at every later one, and
a transmitter that is never found busy. -/
def lateEnv : Env := { clock := fun k => if k = 0 then 0 else 2000, busyPolls := fun _ => 0 }

/-- Slots alternate: the active slot is the parity of the number of transfers
started, and the `j`-th transfer (counted from 0) was of slot `j % 2`. -/
def Alternates (s : State) : Prop :=
  s.logWritingBuffer = s.sent.length % 2 ∧
    s.sent.map Tx.slot = (List.range s.sent.length).map (· % 2)

/-- What holds of every transfer: between 1 and `LOG_BUFFER_LEN` bytes, and as
many bytes of data as its count. -/
def TxOk (tx : Tx) : Prop :=
  1 ≤ tx.count ∧ tx.count ≤ LOG_BUFFER_LEN ∧ tx.data.length = tx.count

/-- The reading of a 32-bit pattern as a two's-complement `int32_t`. -/
def toInt32 (u : Nat) : Int := if u < 2 ^ 31 then (u : Int) else (u : Int) - 2 ^ 32

/-- Receiver side, written from the claim's words (the repository has no
decoder): the reading of one varint field.  The top two bits of the tag byte give the number
of payload bytes (`11`, `10`, `01`, `00` for 1, 2, 3, 4), the low six bits give
the type tag, and the payload is read most-significant byte first as a 32-bit
two's-complement value.  The result is the tag, the value and the bytes left. -/
def decodeInt32 : List Nat → Option (Nat × Int × List Nat)
  | [] => none
  | tag :: rest =>
    let n := 4 - tag / 64
    if rest.length < n then none
    else some (tag % 64, toInt32 (fromBE (rest.take n)), rest.drop n)

/-- One call of the logging interface, with its arguments (for
`logAllRcChannels`, the RC channel source as it stands during the call). -/
inductive Call where
  | byteNoStuff (c : Nat)
  | byteWithStuff (c : Nat)
  | int32WithStuff (type : Nat) (value : Int)
  | timestampMs (value : Nat)
  | allRcChannels (rc : RcSource)

/-- The effect of one call of the logging interface. -/
def exec (e : Env) (call : Call) (s : State) : State :=
  match call with
  | .byteNoStuff c => logByteNoStuff e c s
  | .byteWithStuff c => logBytewithStuff e c s
  | .int32WithStuff type value => logint32withStuff e type value s
  | .timestampMs value => logTimestampMs e value s
  | .allRcChannels rc => logAllRcChannels e rc s

/-- A sequence of calls of the logging interface, in order. -/
def execAll (e : Env) (calls : List Call) (s : State) : State :=
  calls.foldl (fun st call => exec e call st) s

/-- The two primitive actions every logging call is made of: a call of
`logByteNoStuff`, and a reading of the clock outside `logByteNoStuff` (the
`millisRp()` of line 152). -/
inductive Op where
  | append (c : Nat)
  | readClock

/-- The effect of one primitive action. -/
def step (e : Env) (o : Op) (s : State) : State :=
  match o with
  | .append c => logByteNoStuff e c s
  | .readClock => (millisRp e s).2

/-- A sequence of primitive actions, in order. -/
def runOps (e : Env) (ops : List Op) (s : State) : State :=
  ops.foldl (fun st o => step e o st) s

/-- The slot the transmitter holds: the slot of the most recently started
transfer, if any transfer was started. -/
def heldSlot (s : State) : Option Nat := s.sent.getLast?.map Tx.slot

/-- The elapsed time `millisRp() - lastLogMillis` that `logByteNoStuff` would
compute in state `s`, as the integer difference reduced modulo `2^32`. -/
def elapsed (e : Env) (s : State) : Int :=
  (((e.clock s.ticks % 2 ^ 32 : Nat) : Int) - ((s.lastLogMillis % 2 ^ 32 : Nat) : Int)) % 2 ^ 32

/-- A clock that always reads 2000 and a transmitter found busy twice
at every wait. -/
def busyEnv : Env := { clock := fun _ => 2000, busyPolls := fun _ => 2 }

/-- A clock whose first reading is `t`. -/
def clockAt (t : Nat) : Env := { clock := fun _ => t, busyPolls := fun _ => 0 }

/-- The transfers started according to a log of DMA interactions: the slot and
the count of its `started` events, in order. -/
def startedOf : List DmaEvent → List (Nat × Nat)
  | [] => []
  | DmaEvent.started slot count :: rest => (slot, count) :: startedOf rest
  | DmaEvent.answeredBusy :: rest => startedOf rest
  | DmaEvent.answeredIdle :: rest => startedOf rest

/-- In a log of DMA interactions, every start of a transfer comes directly
after an idle answer of `dma_channel_is_busy`: whatever precedes a `started`
event ends with `answeredIdle`. -/
def StartsAfterIdle (log : List DmaEvent) : Prop :=
  ∀ pre slot count post, log = pre ++ DmaEvent.started slot count :: post →
    pre.getLast? = some DmaEvent.answeredIdle

/-- The interactions with the DMA engine in one flush that finds the engine
busy `n` times: `n` busy answers, the idle answer, then the start of the
transfer of `count` bytes of `slot`. -/
def flushRound (n slot count : Nat) : List DmaEvent :=
  List.replicate n DmaEvent.answeredBusy ++
    [DmaEvent.answeredIdle, DmaEvent.started slot count]

/-! ## Basic facts about the state operations -/

theorem waitDmaIdle_fields (n : Nat) (s : State) :
    (waitDmaIdle n s).logBuffer = s.logBuffer ∧ (waitDmaIdle n s).logLen = s.logLen ∧
    (waitDmaIdle n s).logWritingBuffer = s.logWritingBuffer ∧
    (waitDmaIdle n s).lastLogMillis = s.lastLogMillis ∧
    (waitDmaIdle n s).ticks = s.ticks ∧ (waitDmaIdle n s).sent = s.sent ∧
    (waitDmaIdle n s).polls = s.polls + n + 1 := by
  induction n generalizing s with
  | zero => simp [waitDmaIdle]
  | succ n ih =>
    obtain ⟨h1, h2, h3, h4, h5, h6, h7⟩ :=
      ih { s with polls := s.polls + 1, dmaLog := s.dmaLog ++ [DmaEvent.answeredBusy] }
    simp only [waitDmaIdle]
    refine ⟨h1, h2, h3, h4, h5, h6, ?_⟩
    rw [h7]; simp only; omega

theorem flush_sent (e : Env) (s : State) :
    (flush e s).sent = s.sent ++
      [{ slot := s.logWritingBuffer, count := s.logLen,
         data := slotPrefix s.logBuffer s.logWritingBuffer s.logLen }] := by
  obtain ⟨h1, h2, h3, -, -, h6, -⟩ := waitDmaIdle_fields (e.busyPolls s.sent.length) s
  simp [flush, millisRp, h1, h2, h3, h6]

theorem flush_logLen (e : Env) (s : State) : (flush e s).logLen = 0 := rfl

theorem flush_logBuffer (e : Env) (s : State) : (flush e s).logBuffer = s.logBuffer := by
  obtain ⟨h1, -⟩ := waitDmaIdle_fields (e.busyPolls s.sent.length) s
  simp [flush, millisRp, h1]

theorem flush_logWritingBuffer (e : Env) (s : State) :
    (flush e s).logWritingBuffer =
      if (s.logWritingBuffer + 1) % 256 > 1 then 0 else (s.logWritingBuffer + 1) % 256 := by
  obtain ⟨-, -, h3, -⟩ := waitDmaIdle_fields (e.busyPolls s.sent.length) s
  simp [flush, millisRp, h3]

theorem slotPrefix_zero (buf : Nat → Nat → Nat) (b : Nat) : slotPrefix buf b 0 = [] := rfl

theorem slotPrefix_length (buf : Nat → Nat → Nat) (b n : Nat) :
    (slotPrefix buf b n).length = n := by
  simp [slotPrefix]

theorem slotPrefix_write (buf : Nat → Nat → Nat) (b n v : Nat) :
    slotPrefix (writeCell buf b n v) b (n + 1) = slotPrefix buf b n ++ [v] := by
  simp only [slotPrefix, List.range_succ, List.map_append, List.map_cons, List.map_nil]
  congr 1
  · apply List.map_congr_left
    intro i hi
    have : i ≠ n := Nat.ne_of_lt (List.mem_range.mp hi)
    simp [writeCell, this]
  · simp [writeCell]

/-- A flush moves the pending bytes to the transmitter: the stream is unchanged. -/
theorem stream_flush (e : Env) (s : State) : stream (flush e s) = stream s := by
  simp [stream, transmitted, pending, flush_sent, flush_logLen, slotPrefix_zero]

/-- One call of `logByteNoStuff` from a state between calls appends exactly its
byte to the stream, and leaves a state between calls. -/
theorem logByteNoStuff_stream (e : Env) (c : Nat) (s : State) (h : WF s) :
    stream (logByteNoStuff e c s) = stream s ++ [c % 256] ∧ WF (logByteNoStuff e c s) := by
  obtain ⟨hwb, hlen⟩ := h
  simp only [LOG_BUFFER_LEN] at hlen
  have hmod : (s.logLen + 1) % 65536 = s.logLen + 1 := Nat.mod_eq_of_lt (by omega)
  have hwf : ∀ t : State, t.logWritingBuffer = s.logWritingBuffer → WF (flush e t) := by
    intro t ht
    refine ⟨?_, by simp [flush_logLen, LOG_BUFFER_LEN]⟩
    rw [flush_logWritingBuffer, ht]
    split <;> omega
  simp only [logByteNoStuff, hmod, millisRp]
  split
  · refine ⟨?_, hwf _ rfl⟩
    rw [stream_flush]
    simp [stream, transmitted, pending, slotPrefix_write]
  · rename_i hfull
    split
    · refine ⟨?_, hwf _ rfl⟩
      rw [stream_flush]
      simp [stream, transmitted, pending, slotPrefix_write]
    · refine ⟨?_, hwb, ?_⟩
      · simp [stream, transmitted, pending, slotPrefix_write]
      · simp only [LOG_BUFFER_LEN] at hfull ⊢; omega

theorem appended_of_stream {s t : State} {l : List Nat} (h : stream t = stream s ++ l) :
    appended s t = l := by
  simp [appended, h]

theorem logBytesNoStuff_nil (e : Env) (s : State) : logBytesNoStuff e [] s = s := rfl

theorem logBytesNoStuff_cons (e : Env) (c : Nat) (cs : List Nat) (s : State) :
    logBytesNoStuff e (c :: cs) s = logBytesNoStuff e cs (logByteNoStuff e c s) := rfl

theorem logBytesNoStuff_append (e : Env) (as bs : List Nat) (s : State) :
    logBytesNoStuff e (as ++ bs) s = logBytesNoStuff e bs (logBytesNoStuff e as s) := by
  simp [logBytesNoStuff, List.foldl_append]

theorem logBytesWithStuff_cons (e : Env) (c : Nat) (S : List Nat) (s : State) :
    logBytesWithStuff e (c :: S) s = logBytesWithStuff e S (logBytewithStuff e c s) := rfl

theorem logBytesWithStuff_append (e : Env) (as bs : List Nat) (s : State) :
    logBytesWithStuff e (as ++ bs) s = logBytesWithStuff e bs (logBytesWithStuff e as s) := by
  simp [logBytesWithStuff, List.foldl_append]

/-- A run of `logByteNoStuff` appends its bytes to the stream in order. -/
theorem logBytesNoStuff_stream (e : Env) (cs : List Nat) (s : State) (h : WF s) :
    stream (logBytesNoStuff e cs s) = stream s ++ cs.map (· % 256) ∧
      WF (logBytesNoStuff e cs s) := by
  induction cs generalizing s with
  | nil => simp [logBytesNoStuff_nil, h]
  | cons c cs ih =>
    obtain ⟨h1, h2⟩ := logByteNoStuff_stream e c s h
    obtain ⟨h3, h4⟩ := ih _ h2
    rw [logBytesNoStuff_cons]
    exact ⟨by rw [h3, h1]; simp, h4⟩

/-- The function `logBytewithStuff` is the run of `logByteNoStuff` over the
escape sequence of its byte. -/
theorem logBytewithStuff_eq (e : Env) (c : Nat) (s : State) :
    logBytewithStuff e c s = logBytesNoStuff e (stuff (c % 256)) s := by
  unfold logBytewithStuff stuff
  split
  · rfl
  · split
    · rfl
    · simp [logBytesNoStuff]

theorem stuff_lt (c : Nat) (h : c < 256) : ∀ b ∈ stuff c, b < 256 := by
  intro b hb
  unfold stuff at hb
  split at hb
  · simp at hb; omega
  · split at hb
    · simp at hb; omega
    · simp at hb; omega

theorem stuff_ne_7E (c : Nat) : ∀ b ∈ stuff c, b ≠ 0x7E := by
  intro b hb
  unfold stuff at hb
  split at hb
  · simp at hb; omega
  · split at hb
    · simp at hb; omega
    · simp at hb; omega

theorem map_mod_of_lt (l : List Nat) (h : ∀ b ∈ l, b < 256) : l.map (· % 256) = l := by
  induction l with
  | nil => rfl
  | cons a l ih =>
    have ha : a % 256 = a := Nat.mod_eq_of_lt (h a (by simp))
    simp [ha, ih (fun b hb => h b (by simp [hb]))]

theorem logBytewithStuff_stream (e : Env) (c : Nat) (s : State) (h : WF s) :
    stream (logBytewithStuff e c s) = stream s ++ stuff (c % 256) ∧
      WF (logBytewithStuff e c s) := by
  rw [logBytewithStuff_eq]
  have := logBytesNoStuff_stream e (stuff (c % 256)) s h
  rwa [map_mod_of_lt _ (stuff_lt _ (Nat.mod_lt _ (by norm_num)))] at this

theorem stuffAll_nil : stuffAll [] = [] := rfl

theorem stuffAll_cons (c : Nat) (S : List Nat) : stuffAll (c :: S) = stuff c ++ stuffAll S := by
  simp [stuffAll]

theorem stuffAll_append (A B : List Nat) : stuffAll (A ++ B) = stuffAll A ++ stuffAll B := by
  simp [stuffAll]

/-- A run of `logBytewithStuff` appends the stuffed form of its bytes. -/
theorem logBytesWithStuff_stream (e : Env) (S : List Nat) (s : State) (h : WF s) :
    stream (logBytesWithStuff e S s) = stream s ++ stuffAll (S.map (· % 256)) ∧
      WF (logBytesWithStuff e S s) := by
  induction S generalizing s with
  | nil => simp [logBytesWithStuff, stuffAll_nil, h]
  | cons c S ih =>
    obtain ⟨h1, h2⟩ := logBytewithStuff_stream e c s h
    obtain ⟨h3, h4⟩ := ih _ h2
    rw [logBytesWithStuff_cons]
    exact ⟨by rw [h3, h1]; simp [stuffAll_cons], h4⟩

theorem stuffAll_ne_7E (S : List Nat) : ∀ b ∈ stuffAll S, b ≠ 0x7E := by
  induction S with
  | nil => simp [stuffAll_nil]
  | cons c S ih =>
    intro b hb
    rw [stuffAll_cons, List.mem_append] at hb
    rcases hb with hb | hb
    · exact stuff_ne_7E c b hb
    · exact ih b hb

theorem unstuff_cons_of_ne (a : Nat) (l : List Nat) (h : a ≠ 0x7D) :
    unstuff (a :: l) = a :: unstuff l := by
  cases l with
  | nil => simp [unstuff]
  | cons b r => simp [unstuff, h]

/-- Decoding undoes stuffing, for every sequence. -/
theorem unstuff_stuffAll (S : List Nat) : unstuff (stuffAll S) = S := by
  induction S with
  | nil => simp [stuffAll_nil, unstuff]
  | cons c S ih =>
    rw [stuffAll_cons]
    unfold stuff
    split
    · rename_i hc
      simp [unstuff, ih, hc]
    · split
      · rename_i hc
        simp [unstuff, ih, hc]
      · rename_i h1 h2
        simp only [List.singleton_append]
        rw [unstuff_cons_of_ne _ _ h2, ih]

/-- The stuffed form is longer than the sequence by one byte for every byte
equal to `0x7E` or `0x7D`. -/
theorem stuffAll_length (S : List Nat) :
    (stuffAll S).length = S.length + (S.filter (fun b => b = 0x7E ∨ b = 0x7D)).length := by
  induction S with
  | nil => simp [stuffAll_nil]
  | cons c S ih =>
    rw [stuffAll_cons, List.length_append, ih]
    unfold stuff
    by_cases h1 : c = 0x7E
    · simp [h1]; omega
    · by_cases h2 : c = 0x7D
      · simp [h2]; omega
      · simp [h1, h2]; omega

/-! ## Bit masks and shifts -/

theorem and_high_mask_eq_zero_iff (u k : Nat) (hk : k ≤ 32) (hu : u < 2 ^ 32) :
    u &&& ((2 ^ (32 - k) - 1) <<< k) = 0 ↔ u < 2 ^ k := by
  constructor
  · intro h
    apply Nat.lt_pow_two_of_testBit
    intro i hi
    by_cases h32 : i < 32
    · have := congrArg (fun x => Nat.testBit x i) h
      simp only [Nat.testBit_and, Nat.testBit_shiftLeft, Nat.testBit_two_pow_sub_one,
        Nat.zero_testBit] at this
      have h1 : decide (i ≥ k) = true := by simpa using hi
      have h2 : decide (i - k < 32 - k) = true := by simp; omega
      simpa [h1, h2] using this
    · exact Nat.testBit_lt_two_pow
        (lt_of_lt_of_le hu (Nat.pow_le_pow_right (by norm_num) (by omega)))
  · intro h
    apply Nat.eq_of_testBit_eq
    intro i
    simp only [Nat.testBit_and, Nat.testBit_shiftLeft, Nat.zero_testBit]
    by_cases hi : k ≤ i
    · have : u.testBit i = false :=
        Nat.testBit_lt_two_pow (lt_of_lt_of_le h (Nat.pow_le_pow_right (by norm_num) hi))
      simp [this]
    · simp [hi]

theorem mask8 (u : Nat) (hu : u < 2 ^ 32) : u &&& 0xFFFFFF00 = 0 ↔ u < 256 := by
  have := and_high_mask_eq_zero_iff u 8 (by norm_num) hu
  have h : (2 ^ (32 - 8) - 1) <<< 8 = 0xFFFFFF00 := by decide
  rw [h] at this
  simpa using this

theorem mask16 (u : Nat) (hu : u < 2 ^ 32) : u &&& 0xFFFF0000 = 0 ↔ u < 256 ^ 2 := by
  have := and_high_mask_eq_zero_iff u 16 (by norm_num) hu
  have h : (2 ^ (32 - 16) - 1) <<< 16 = 0xFFFF0000 := by decide
  rw [h] at this
  simpa using this

theorem mask24 (u : Nat) (hu : u < 2 ^ 32) : u &&& 0xFF000000 = 0 ↔ u < 256 ^ 3 := by
  have := and_high_mask_eq_zero_iff u 24 (by norm_num) hu
  have h : (2 ^ (32 - 24) - 1) <<< 24 = 0xFF000000 := by decide
  rw [h] at this
  simpa using this

theorem byteOfShift_natCast (V k : Nat) : byteOfShift (V : Int) k = V / 2 ^ k % 256 := by
  unfold byteOfShift
  rw [Int.shiftRight_eq_div_pow]
  norm_cast

theorem toNat_emod_natCast (V : Nat) (h : V < 2 ^ 32) : ((V : Int) % 2 ^ 32).toNat = V := by
  have : ((V : Int) % 2 ^ 32).toNat = V % 2 ^ 32 := by norm_cast
  rw [this]
  exact Nat.mod_eq_of_lt h

theorem or_lt_256 (a b : Nat) (ha : a < 256) (hb : b < 256) : a ||| b < 256 :=
  @Nat.or_lt_two_pow a b 8 ha hb

/-! ## The composite functions as runs of `logBytewithStuff` -/

theorem logBytewithStuff_mod (e : Env) (c : Nat) (s : State) :
    logBytewithStuff e (c % 256) s = logBytewithStuff e c s := by
  simp [logBytewithStuff]

theorem logTimestampMs_eq (e : Env) (value : Nat) (s : State) :
    logTimestampMs e value s = logBytesWithStuff e (timestampBytes value) s := by
  show _ = List.foldl _ _ (timestampBytes value)
  unfold timestampBytes
  simp only [List.foldl_cons, List.foldl_nil]
  rw [logBytewithStuff_mod, logBytewithStuff_mod, logBytewithStuff_mod, logBytewithStuff_mod]
  rfl

theorem logint32withStuff_eq (e : Env) (type : Nat) (value : Int) (s : State) :
    logint32withStuff e type value s = logBytesWithStuff e (int32Bytes type value) s := by
  show _ = List.foldl _ _ (int32Bytes type value)
  unfold int32Bytes
  by_cases h1 : (value % 2 ^ 32).toNat &&& 0xFFFFFF00 = 0
  · simp only [if_pos h1, List.foldl_cons, List.foldl_nil, logBytewithStuff_mod]
    show (if _ then _ else _) = _
    rw [if_pos h1]
  · by_cases h2 : (value % 2 ^ 32).toNat &&& 0xFFFF0000 = 0
    · simp only [if_neg h1, if_pos h2, List.foldl_cons, List.foldl_nil, logBytewithStuff_mod]
      show (if _ then _ else _) = _
      rw [if_neg h1, if_pos h2]
    · by_cases h3 : (value % 2 ^ 32).toNat &&& 0xFF000000 = 0
      · simp only [if_neg h1, if_neg h2, if_pos h3, List.foldl_cons, List.foldl_nil,
          logBytewithStuff_mod]
        show (if _ then _ else _) = _
        rw [if_neg h1, if_neg h2, if_pos h3]
      · simp only [if_neg h1, if_neg h2, if_neg h3, List.foldl_cons, List.foldl_nil,
          logBytewithStuff_mod]
        show (if _ then _ else _) = _
        rw [if_neg h1, if_neg h2, if_neg h3]
        simp only [logBytewithStuff_mod]

theorem stream_millisRp (e : Env) (s : State) : stream (millisRp e s).2 = stream s := rfl

theorem WF_millisRp (e : Env) (s : State) (h : WF s) : WF (millisRp e s).2 := h

theorem timestampBytes_lt (value : Nat) : ∀ b ∈ timestampBytes value, b < 256 := by
  intro b hb
  simp only [timestampBytes, List.mem_cons, List.mem_singleton, List.not_mem_nil,
    or_false] at hb
  rcases hb with h | h | h | h <;> (rw [h]; exact Nat.mod_lt _ (by norm_num))

theorem byteOfShift_lt (value : Int) (k : Nat) : byteOfShift value k < 256 := by
  unfold byteOfShift
  have h1 : (value >>> k) % 256 < 256 := Int.emod_lt_of_pos _ (by norm_num)
  have h2 : 0 ≤ (value >>> k) % 256 := Int.emod_nonneg _ (by norm_num)
  omega

theorem int32Bytes_lt (type : Nat) (value : Int) : ∀ b ∈ int32Bytes type value, b < 256 := by
  intro b hb
  have hm : ∀ x : Nat, x % 256 < 256 := fun x => Nat.mod_lt _ (by norm_num)
  unfold int32Bytes at hb
  simp only at hb
  split at hb
  · simp only [List.mem_cons, List.mem_singleton, List.not_mem_nil, or_false] at hb
    rcases hb with h | h <;> rw [h]
    · exact hm _
    · exact byteOfShift_lt _ _
  · split at hb
    · simp only [List.mem_cons, List.mem_singleton, List.not_mem_nil, or_false] at hb
      rcases hb with h | h | h <;> rw [h]
      · exact hm _
      · exact byteOfShift_lt _ _
      · exact byteOfShift_lt _ _
    · split at hb
      · simp only [List.mem_cons, List.mem_singleton, List.not_mem_nil, or_false] at hb
        rcases hb with h | h | h | h <;> rw [h]
        · exact hm _
        · exact byteOfShift_lt _ _
        · exact byteOfShift_lt _ _
        · exact byteOfShift_lt _ _
      · simp only [List.mem_cons, List.mem_singleton, List.not_mem_nil, or_false] at hb
        rcases hb with h | h | h | h | h <;> rw [h]
        · exact hm _
        · exact byteOfShift_lt _ _
        · exact byteOfShift_lt _ _
        · exact byteOfShift_lt _ _
        · exact byteOfShift_lt _ _

/-- A run of `logBytewithStuff` over bytes appends their stuffed form. -/
theorem logBytesWithStuff_stream_of_lt (e : Env) (S : List Nat) (s : State) (h : WF s)
    (hS : ∀ b ∈ S, b < 256) :
    stream (logBytesWithStuff e S s) = stream s ++ stuffAll S ∧
      WF (logBytesWithStuff e S s) := by
  have := logBytesWithStuff_stream e S s h
  rwa [map_mod_of_lt S hS] at this

theorem logTimestampMs_stream (e : Env) (value : Nat) (s : State) (h : WF s) :
    stream (logTimestampMs e value s) = stream s ++ stuffAll (timestampBytes value) ∧
      WF (logTimestampMs e value s) := by
  rw [logTimestampMs_eq]
  exact logBytesWithStuff_stream_of_lt e _ s h (timestampBytes_lt value)

theorem logint32withStuff_stream (e : Env) (type : Nat) (value : Int) (s : State) (h : WF s) :
    stream (logint32withStuff e type value s) = stream s ++ stuffAll (int32Bytes type value) ∧
      WF (logint32withStuff e type value s) := by
  rw [logint32withStuff_eq]
  exact logBytesWithStuff_stream_of_lt e _ s h (int32Bytes_lt type value)

/-- The two logical bytes of channel `i`. -/
theorem logRcChannel_stream (e : Env) (rc : RcSource) (s : State) (i : Nat) (h : WF s) :
    stream (logRcChannel e rc s i) = stream s ++
        stuffAll [rc.rcChannelsUs i % 65536 / 2 ^ 8 % 256, rc.rcChannelsUs i % 65536 % 256] ∧
      WF (logRcChannel e rc s i) := by
  unfold logRcChannel
  simp only
  obtain ⟨h1, h2⟩ := logBytewithStuff_stream e ((rc.rcChannelsUs i % 65536) >>> 8) s h
  obtain ⟨h3, h4⟩ := logBytewithStuff_stream e (rc.rcChannelsUs i % 65536) _ h2
  refine ⟨?_, h4⟩
  rw [h3, h1, Nat.shiftRight_eq_div_pow]
  simp [stuffAll_cons, stuffAll_nil]

theorem logRcChannels_stream (e : Env) (rc : RcSource) (l : List Nat) (s : State) (h : WF s) :
    stream (l.foldl (logRcChannel e rc) s) = stream s ++ stuffAll
        ((l.map (fun i =>
          [rc.rcChannelsUs i % 65536 / 2 ^ 8 % 256, rc.rcChannelsUs i % 65536 % 256])).flatten) ∧
      WF (l.foldl (logRcChannel e rc) s) := by
  induction l generalizing s with
  | nil => simp [stuffAll_nil, h]
  | cons i l ih =>
    obtain ⟨h1, h2⟩ := logRcChannel_stream e rc s i h
    obtain ⟨h3, h4⟩ := ih _ h2
    rw [List.foldl_cons]
    refine ⟨?_, h4⟩
    rw [h3, h1, List.map_cons, List.flatten_cons, stuffAll_append, List.append_assoc]

theorem timestampBytes_eq (T : Nat) (hT : T < 2 ^ 32) :
    timestampBytes T = [T / 2 ^ 24 % 256, T / 2 ^ 16 % 256, T / 2 ^ 8 % 256, T % 256] := by
  unfold timestampBytes
  simp only [Nat.mod_eq_of_lt hT, Nat.shiftRight_eq_div_pow]

/-- The stream after a call of `logAllRcChannels` that passes the gate. -/
theorem logAllRcChannels_stream (e : Env) (rc : RcSource) (s : State) (h : WF s)
    (hrc : rc.lastRcChannels % 2 ^ 32 ≠ 0) :
    stream (logAllRcChannels e rc s) = stream s ++ (0x7E ::
      stuffAll (rcFrameBytes (rcTimestamp e s) (fun i => rc.rcChannelsUs i % 65536))) ∧
      WF (logAllRcChannels e rc s) := by
  unfold logAllRcChannels
  rw [if_neg hrc]
  simp only
  obtain ⟨h1, w1⟩ := logByteNoStuff_stream e 0x7E s h
  have w1' := WF_millisRp e _ w1
  obtain ⟨h2, w2⟩ := logTimestampMs_stream e (millisRp e (logByteNoStuff e 0x7E s)).1 _ w1'
  obtain ⟨h3, w3⟩ := logByteNoStuff_stream e 40 _ w2
  obtain ⟨h4, w4⟩ := logRcChannels_stream e rc (List.range 16) _ w3
  refine ⟨?_, w4⟩
  have hT : (millisRp e (logByteNoStuff e 0x7E s)).1 < 2 ^ 32 := Nat.mod_lt _ (by norm_num)
  rw [h4, h3, h2, stream_millisRp, h1, timestampBytes_eq _ hT]
  unfold rcFrameBytes rcTimestamp
  have h40 : stuffAll [40] = [40] := by decide
  rw [stuffAll_append, stuffAll_append, h40]
  simp

/-! ## One call of `logByteNoStuff`, case by case -/

theorem sub32_mod_left (a b : Nat) : sub32 (a % 2 ^ 32) b = sub32 a b := by
  simp [sub32]

theorem toggle_of_lt (wb : Nat) (h : wb < 2) :
    (if (wb + 1) % 256 > 1 then 0 else (wb + 1) % 256) = 1 - wb := by
  have h1 : (wb + 1) % 256 = wb + 1 := Nat.mod_eq_of_lt (by omega)
  rw [h1]
  split <;> omega

/-- An append that neither fills the slot nor finds the interval exceeded: the
byte is stored, the cursor advances, the clock is read once. -/
theorem logByteNoStuff_noflush (e : Env) (c : Nat) (s : State) (hlen : s.logLen + 1 < 512)
    (hel : sub32 (e.clock s.ticks) s.lastLogMillis ≤ MAX_LOG_INTERVAL_MS) :
    logByteNoStuff e c s =
      { s with
        logBuffer := writeCell s.logBuffer s.logWritingBuffer s.logLen (c % 256),
        logLen := s.logLen + 1, ticks := s.ticks + 1 } := by
  have hmod : (s.logLen + 1) % 65536 = s.logLen + 1 := Nat.mod_eq_of_lt (by omega)
  have h1 : ¬ (s.logLen + 1 ≥ LOG_BUFFER_LEN) := by simp only [LOG_BUFFER_LEN]; omega
  have h2 : ¬ (sub32 (e.clock s.ticks % 2 ^ 32) s.lastLogMillis > MAX_LOG_INTERVAL_MS) := by
    rw [sub32_mod_left]; omega
  simp only [logByteNoStuff, hmod, millisRp, if_neg h1, if_neg h2]

/-- An append that fills the slot: the flush follows without a clock reading
for the test. -/
theorem logByteNoStuff_full (e : Env) (c : Nat) (s : State) (hlen : s.logLen + 1 = 512) :
    logByteNoStuff e c s = flush e
      { s with
        logBuffer := writeCell s.logBuffer s.logWritingBuffer s.logLen (c % 256),
        logLen := s.logLen + 1 } := by
  have hmod : (s.logLen + 1) % 65536 = s.logLen + 1 := Nat.mod_eq_of_lt (by omega)
  have h1 : s.logLen + 1 ≥ LOG_BUFFER_LEN := by simp only [LOG_BUFFER_LEN]; omega
  simp only [logByteNoStuff, hmod, if_pos h1]

/-- An append that finds the interval exceeded while the slot is not full. -/
theorem logByteNoStuff_timeout (e : Env) (c : Nat) (s : State) (hlen : s.logLen + 1 < 512)
    (hel : sub32 (e.clock s.ticks) s.lastLogMillis > MAX_LOG_INTERVAL_MS) :
    logByteNoStuff e c s = flush e
      { s with
        logBuffer := writeCell s.logBuffer s.logWritingBuffer s.logLen (c % 256),
        logLen := s.logLen + 1, ticks := s.ticks + 1 } := by
  have hmod : (s.logLen + 1) % 65536 = s.logLen + 1 := Nat.mod_eq_of_lt (by omega)
  have h1 : ¬ (s.logLen + 1 ≥ LOG_BUFFER_LEN) := by simp only [LOG_BUFFER_LEN]; omega
  have h2 : sub32 (e.clock s.ticks % 2 ^ 32) s.lastLogMillis > MAX_LOG_INTERVAL_MS := by
    rw [sub32_mod_left]; exact hel
  simp only [logByteNoStuff, hmod, millisRp, if_neg h1, if_pos h2]

/-- Every append from a state between calls either starts no transfer and
advances the cursor, or starts exactly one transfer, of the active slot and of
cursor-many bytes (the byte just stored included), and switches slot. -/
theorem logByteNoStuff_cases (e : Env) (c : Nat) (s : State) (h : WF s) :
    ((logByteNoStuff e c s).sent = s.sent ∧
      (logByteNoStuff e c s).logWritingBuffer = s.logWritingBuffer ∧
      (logByteNoStuff e c s).logLen = s.logLen + 1 ∧ s.logLen + 1 < LOG_BUFFER_LEN ∧
      sub32 (e.clock s.ticks) s.lastLogMillis ≤ MAX_LOG_INTERVAL_MS) ∨
    ((logByteNoStuff e c s).sent = s.sent ++ [flushTx c s] ∧
      (logByteNoStuff e c s).logWritingBuffer = 1 - s.logWritingBuffer ∧
      (logByteNoStuff e c s).logLen = 0 ∧
      (s.logLen + 1 = LOG_BUFFER_LEN ∨
        sub32 (e.clock s.ticks) s.lastLogMillis > MAX_LOG_INTERVAL_MS)) := by
  obtain ⟨hwb, hlen⟩ := h
  simp only [LOG_BUFFER_LEN] at hlen ⊢
  by_cases hfull : s.logLen + 1 = 512
  · right
    rw [logByteNoStuff_full e c s hfull, flush_sent, flush_logWritingBuffer, flush_logLen]
    refine ⟨?_, toggle_of_lt _ hwb, rfl, Or.inl hfull⟩
    simp [flushTx, pending, slotPrefix_write]
  · by_cases hel : sub32 (e.clock s.ticks) s.lastLogMillis > MAX_LOG_INTERVAL_MS
    · right
      rw [logByteNoStuff_timeout e c s (by omega) hel, flush_sent, flush_logWritingBuffer,
        flush_logLen]
      refine ⟨?_, toggle_of_lt _ hwb, rfl, Or.inr hel⟩
      simp [flushTx, pending, slotPrefix_write]
    · left
      rw [logByteNoStuff_noflush e c s (by omega) (by omega)]
      exact ⟨rfl, rfl, rfl, by omega, by omega⟩

/-- A run of appends none of which fills the slot or finds the interval
exceeded starts no transfer; the bytes are pending in the active slot. -/
theorem logBytesNoStuff_noflush (e : Env) (cs : List Nat) (s : State) (h : WF s)
    (hlen : s.logLen + cs.length < 512)
    (hel : ∀ k, k < cs.length →
      sub32 (e.clock (s.ticks + k)) s.lastLogMillis ≤ MAX_LOG_INTERVAL_MS) :
    (logBytesNoStuff e cs s).sent = s.sent ∧
    (logBytesNoStuff e cs s).logWritingBuffer = s.logWritingBuffer ∧
    (logBytesNoStuff e cs s).logLen = s.logLen + cs.length ∧
    (logBytesNoStuff e cs s).lastLogMillis = s.lastLogMillis ∧
    (logBytesNoStuff e cs s).ticks = s.ticks + cs.length ∧
    pending (logBytesNoStuff e cs s) = pending s ++ cs.map (· % 256) := by
  induction cs generalizing s with
  | nil => simp [logBytesNoStuff_nil]
  | cons c cs ih =>
    simp only [List.length_cons] at hlen hel
    have hstep := logByteNoStuff_noflush e c s (by omega) (by simpa using hel 0 (by omega))
    have hwf := (logByteNoStuff_stream e c s h).2
    rw [logBytesNoStuff_cons]
    rw [hstep] at hwf ⊢
    obtain ⟨a1, a2, a3, a4, a5, a6⟩ := ih _ hwf (by simp only; omega) (by
      intro k hk
      simp only
      have := hel (k + 1) (by omega)
      rwa [show s.ticks + 1 + k = s.ticks + (k + 1) by omega])
    simp only at a1 a2 a3 a4 a5
    refine ⟨a1, a2, by rw [a3, List.length_cons]; omega, a4,
      by rw [a5, List.length_cons]; omega, ?_⟩
    rw [a6]
    simp [pending, slotPrefix_write]

theorem WF_init : WF init := by
  unfold WF init LOG_BUFFER_LEN
  exact ⟨by decide, by decide⟩

theorem stream_init : stream init = [] := rfl

theorem Alternates_step (e : Env) (c : Nat) (s : State) (h : WF s) (ha : Alternates s) :
    Alternates (logByteNoStuff e c s) := by
  obtain ⟨a1, a2⟩ := ha
  rcases logByteNoStuff_cases e c s h with ⟨h1, h2, -⟩ | ⟨h1, h2, -⟩
  · exact ⟨by rw [h2, h1]; exact a1, by rw [h1]; exact a2⟩
  · refine ⟨?_, ?_⟩
    · rw [h2, h1, List.length_append, List.length_singleton, a1]
      omega
    · rw [h1, List.map_append, List.length_append, List.length_singleton, List.range_succ,
        List.map_append, a2]
      simp [flushTx, a1]

theorem Alternates_run (e : Env) (cs : List Nat) (s : State) (h : WF s) (ha : Alternates s) :
    Alternates (logBytesNoStuff e cs s) := by
  induction cs generalizing s with
  | nil => exact ha
  | cons c cs ih =>
    rw [logBytesNoStuff_cons]
    exact ih _ (logByteNoStuff_stream e c s h).2 (Alternates_step e c s h ha)

theorem pending_length (s : State) : (pending s).length = s.logLen := by
  simp [pending, slotPrefix_length]

theorem flushTx_ok (c : Nat) (s : State) (h : WF s) : TxOk (flushTx c s) := by
  obtain ⟨-, hlen⟩ := h
  unfold TxOk flushTx
  simp only [List.length_append, pending_length, List.length_singleton]
  exact ⟨by omega, by omega, trivial⟩

theorem TxOk_run (e : Env) (cs : List Nat) (s : State) (h : WF s)
    (hs : ∀ tx ∈ s.sent, TxOk tx) : ∀ tx ∈ (logBytesNoStuff e cs s).sent, TxOk tx := by
  induction cs generalizing s with
  | nil => exact hs
  | cons c cs ih =>
    rw [logBytesNoStuff_cons]
    apply ih _ (logByteNoStuff_stream e c s h).2
    rcases logByteNoStuff_cases e c s h with ⟨h1, -⟩ | ⟨h1, -⟩
    · rw [h1]; exact hs
    · rw [h1]
      intro tx htx
      rcases List.mem_append.mp htx with h2 | h2
      · exact hs tx h2
      · rw [List.mem_singleton.mp h2]
        exact flushTx_ok c s h

/-- The logical bytes of `logint32withStuff` for tag 5 at the boundaries of the
four width classes, evaluated on the embedding. -/
theorem int32Bytes_boundaries :
    int32Bytes 5 0 = [0xC5, 0] ∧ int32Bytes 5 255 = [0xC5, 255] ∧
    int32Bytes 5 256 = [0x85, 1, 0] ∧ int32Bytes 5 65535 = [0x85, 255, 255] ∧
    int32Bytes 5 65536 = [0x45, 1, 0, 0] ∧ int32Bytes 5 16777215 = [0x45, 255, 255, 255] ∧
    int32Bytes 5 16777216 = [5, 1, 0, 0, 0] ∧
    int32Bytes 5 2147483647 = [5, 127, 255, 255, 255] := by
  decide

/-! ## The claims -/

/-- C1 (stuffing round-trip): for every byte sequence `S`, feeding the bytes of
`S` one by one through `logBytewithStuff` from any state between calls, and
decoding the bytes this appended to the stream with the inverse escape rule,
gives back exactly `S`. -/
theorem C1_stuffing_roundtrip (e : Env) (s : State) (S : List Nat) (hs : WF s)
    (hS : ∀ c ∈ S, c < 256) :
    unstuff (appended s (logBytesWithStuff e S s)) = S := by
  obtain ⟨h1, -⟩ := logBytesWithStuff_stream_of_lt e S s hs hS
  rw [appended_of_stream h1, unstuff_stuffAll]

/-- The round-trip of C1 on the sequence `7E 01 7D 5E` from the initial state. -/
theorem C1_stuffing_roundtrip_witness :
    WF init ∧
      unstuff (appended init (logBytesWithStuff quietEnv [0x7E, 0x01, 0x7D, 0x5E] init)) =
        [0x7E, 0x01, 0x7D, 0x5E] :=
  ⟨WF_init, C1_stuffing_roundtrip quietEnv init [0x7E, 0x01, 0x7D, 0x5E] WF_init (by decide)⟩

/-- C2 (the marker is never produced by the stuffed paths): from any state
between calls, no byte appended to the stream by `logBytewithStuff`, by
`logTimestampMs` or by `logint32withStuff` equals `0x7E`, whatever the
argument; `logByteNoStuff` appends its byte as it is, so `0x7E` enters the
stream only through it. -/
theorem C2_marker_only_raw (e : Env) (s : State) (hs : WF s) :
    (∀ c, ∀ b ∈ appended s (logBytewithStuff e c s), b ≠ 0x7E) ∧
    (∀ T, ∀ b ∈ appended s (logTimestampMs e T s), b ≠ 0x7E) ∧
    (∀ type value, ∀ b ∈ appended s (logint32withStuff e type value s), b ≠ 0x7E) ∧
    (∀ c, appended s (logByteNoStuff e c s) = [c % 256]) := by
  refine ⟨?_, ?_, ?_, ?_⟩
  · intro c b hb
    rw [appended_of_stream (logBytewithStuff_stream e c s hs).1] at hb
    exact stuff_ne_7E _ b hb
  · intro T b hb
    rw [appended_of_stream (logTimestampMs_stream e T s hs).1] at hb
    exact stuffAll_ne_7E _ b hb
  · intro type value b hb
    rw [appended_of_stream (logint32withStuff_stream e type value s hs).1] at hb
    exact stuffAll_ne_7E _ b hb
  · intro c
    exact appended_of_stream (logByteNoStuff_stream e c s hs).1

/-- The raw path of C2 at the initial state: `logByteNoStuff(0x7E)` appends `0x7E`. -/
theorem C2_marker_only_raw_witness :
    WF init ∧ appended init (logByteNoStuff quietEnv 0x7E init) = [0x7E] :=
  ⟨WF_init, (C2_marker_only_raw quietEnv init WF_init).2.2.2 0x7E⟩

/-- C3 (varint minimality): for every tag byte `type` and every non-negative
32-bit value `V`, the logical bytes `logint32withStuff` emits are the tag byte
of the width class `n = widthOf V` followed by exactly `n` payload bytes, where
`n` is the smallest of 1, 2, 3, 4 with `V < 256 ^ n`, the tag is `type|0xC0`,
`type|0x80`, `type|0x40`, `type` for `n = 1, 2, 3, 4`, and the payload read
most-significant byte first is `V`; the call is the run of `logBytewithStuff`
over these bytes and appends their stuffed form. -/
theorem C3_varint_minimal (e : Env) (s : State) (type V : Nat) (hs : WF s)
    (ht : type < 256) (hV : V < 2 ^ 31) :
    ∃ payload : List Nat,
      int32Bytes type (V : Int) = tagOf type (widthOf V) :: payload ∧
      payload.length = widthOf V ∧ (∀ b ∈ payload, b < 256) ∧ fromBE payload = V ∧
      1 ≤ widthOf V ∧ widthOf V ≤ 4 ∧ V < 256 ^ widthOf V ∧
      (∀ m, 1 ≤ m → V < 256 ^ m → widthOf V ≤ m) ∧
      logint32withStuff e type (V : Int) s =
        logBytesWithStuff e (tagOf type (widthOf V) :: payload) s ∧
      appended s (logint32withStuff e type (V : Int) s) =
        stuffAll (tagOf type (widthOf V) :: payload) := by
  have hu : ((V : Int) % 2 ^ 32).toNat = V := toNat_emod_natCast V (by omega)
  have hcode := logint32withStuff_eq e type (V : Int) s
  have happ := appended_of_stream (logint32withStuff_stream e type (V : Int) s hs).1
  have hmin : ∀ n, 1 ≤ n → n ≤ 4 → (n = 1 ∨ 256 ^ (n - 1) ≤ V) →
      ∀ m, 1 ≤ m → V < 256 ^ m → n ≤ m := by
    intro n h1 h4 hn m hm hVm
    by_contra hlt
    rcases hn with hn | hn
    · omega
    · have : 256 ^ m ≤ 256 ^ (n - 1) := Nat.pow_le_pow_right (by norm_num) (by omega)
      omega
  have hty : type % 256 = type := Nat.mod_eq_of_lt ht
  have hor : ∀ k, k < 256 → (type ||| k) % 256 = type ||| k :=
    fun k hk => Nat.mod_eq_of_lt (or_lt_256 _ _ ht hk)
  have hbytes : int32Bytes type (V : Int) =
      if V < 256 then [type ||| 0xC0, V % 256]
      else if V < 256 ^ 2 then [type ||| 0x80, V / 2 ^ 8 % 256, V % 256]
      else if V < 256 ^ 3 then [type ||| 0x40, V / 2 ^ 16 % 256, V / 2 ^ 8 % 256, V % 256]
      else [type, V / 2 ^ 24 % 256, V / 2 ^ 16 % 256, V / 2 ^ 8 % 256, V % 256] := by
    unfold int32Bytes
    simp only [hu, mask8 V (by omega), mask16 V (by omega), mask24 V (by omega),
      byteOfShift_natCast, hty, hor 0xC0 (by norm_num), hor 0x80 (by norm_num),
      hor 0x40 (by norm_num), pow_zero, Nat.div_one]
  have hm : ∀ x : Nat, x % 256 < 256 := fun x => Nat.mod_lt _ (by norm_num)
  by_cases c1 : V < 256
  · have hw : widthOf V = 1 := by unfold widthOf; rw [if_pos c1]
    rw [hw]
    rw [hbytes, if_pos c1] at hcode happ ⊢
    refine ⟨[V % 256], by simp [tagOf], rfl, ?_, ?_, by omega, by omega, by omega,
      hmin 1 (by omega) (by omega) (Or.inl rfl), ?_, ?_⟩
    · intro b hb; simp at hb; omega
    · simp [fromBE]; omega
    · simpa [tagOf] using hcode
    · simpa [tagOf] using happ
  · by_cases c2 : V < 256 ^ 2
    · have hw : widthOf V = 2 := by unfold widthOf; rw [if_neg c1, if_pos c2]
      rw [hw]
      rw [hbytes, if_neg c1, if_pos c2] at hcode happ ⊢
      refine ⟨[V / 2 ^ 8 % 256, V % 256], by simp [tagOf], rfl, ?_, ?_, by omega, by omega,
        c2, hmin 2 (by omega) (by omega) (Or.inr (by norm_num; omega)), ?_, ?_⟩
      · intro b hb; simp at hb; omega
      · simp [fromBE]; norm_num at c2; omega
      · simpa [tagOf] using hcode
      · simpa [tagOf] using happ
    · by_cases c3 : V < 256 ^ 3
      · have hw : widthOf V = 3 := by unfold widthOf; rw [if_neg c1, if_neg c2, if_pos c3]
        rw [hw]
        rw [hbytes, if_neg c1, if_neg c2, if_pos c3] at hcode happ ⊢
        refine ⟨[V / 2 ^ 16 % 256, V / 2 ^ 8 % 256, V % 256], by simp [tagOf], rfl, ?_, ?_,
          by omega, by omega, c3,
          hmin 3 (by omega) (by omega) (Or.inr (by norm_num at c2 ⊢; omega)), ?_, ?_⟩
        · intro b hb; simp at hb; omega
        · simp [fromBE]; norm_num at c3; omega
        · simpa [tagOf] using hcode
        · simpa [tagOf] using happ
      · have hw : widthOf V = 4 := by unfold widthOf; rw [if_neg c1, if_neg c2, if_neg c3]
        rw [hw]
        rw [hbytes, if_neg c1, if_neg c2, if_neg c3] at hcode happ ⊢
        refine ⟨[V / 2 ^ 24 % 256, V / 2 ^ 16 % 256, V / 2 ^ 8 % 256, V % 256],
          by simp [tagOf], rfl, ?_, ?_, by omega, by omega, by norm_num; omega,
          hmin 4 (by omega) (by omega) (Or.inr (by norm_num at c3 ⊢; omega)), ?_, ?_⟩
        · intro b hb; simp at hb; omega
        · simp [fromBE]; omega
        · simpa [tagOf] using hcode
        · simpa [tagOf] using happ

/-- The encoding of C3 at the boundary value 65536 with tag 7, from the initial state. -/
theorem C3_varint_minimal_witness :
    WF init ∧ (7 : Nat) < 256 ∧ (65536 : Nat) < 2 ^ 31 ∧
    ∃ payload : List Nat,
      int32Bytes 7 ((65536 : Nat) : Int) = tagOf 7 (widthOf 65536) :: payload ∧
      payload.length = widthOf 65536 ∧ (∀ b ∈ payload, b < 256) ∧ fromBE payload = 65536 ∧
      1 ≤ widthOf 65536 ∧ widthOf 65536 ≤ 4 ∧ 65536 < 256 ^ widthOf 65536 ∧
      (∀ m, 1 ≤ m → 65536 < 256 ^ m → widthOf 65536 ≤ m) ∧
      logint32withStuff quietEnv 7 ((65536 : Nat) : Int) init =
        logBytesWithStuff quietEnv (tagOf 7 (widthOf 65536) :: payload) init ∧
      appended init (logint32withStuff quietEnv 7 ((65536 : Nat) : Int) init) =
        stuffAll (tagOf 7 (widthOf 65536) :: payload) :=
  ⟨WF_init, by decide, by decide,
    C3_varint_minimal quietEnv init 7 65536 WF_init (by decide) (by decide)⟩

/-- C4 (stream integrity): starting from the initial state, after any sequence
of bytes passed to `logByteNoStuff` under any clock, the chunks handed to the
transmitter, concatenated in the order handed over, followed by the first
`logLen` bytes of the active slot, are exactly the bytes appended, in order. -/
theorem C4_stream_integrity (e : Env) (cs : List Nat) (hb : ∀ c ∈ cs, c < 256) :
    transmitted (logBytesNoStuff e cs init) ++ pending (logBytesNoStuff e cs init) = cs := by
  have h := (logBytesNoStuff_stream e cs init WF_init).1
  rw [stream_init, List.nil_append, map_mod_of_lt cs hb] at h
  exact h

/-- The stream of C4 after three appends, the second of which flushes by time. -/
theorem C4_stream_integrity_witness :
    transmitted (logBytesNoStuff lateEnv [1, 2, 3] init) ++
      pending (logBytesNoStuff lateEnv [1, 2, 3] init) = [1, 2, 3] :=
  C4_stream_integrity lateEnv [1, 2, 3] (by decide)

/-- C5 (flush by size): from a state with cursor 0, if 512 bytes are appended
with `logByteNoStuff` and the elapsed time read at each of the first 511
appends is at most 1000 ms (the 512th append does not read the clock for the
test), then none of the first 511 appends starts a transfer, the 512th starts
exactly one, of the slot that was active, of 512 bytes, which are the bytes
appended in order; afterwards the active slot is the other slot and the
cursor is 0. -/
theorem C5_flush_by_size (e : Env) (s : State) (cs : List Nat)
    (hwb : s.logWritingBuffer < 2) (h0 : s.logLen = 0) (hlen : cs.length = 512)
    (hb : ∀ c ∈ cs, c < 256)
    (hel : ∀ k, k < 511 →
      sub32 (e.clock (s.ticks + k)) s.lastLogMillis ≤ MAX_LOG_INTERVAL_MS) :
    (∀ k, k < 512 → (logBytesNoStuff e (cs.take k) s).sent = s.sent) ∧
    (logBytesNoStuff e cs s).sent =
      s.sent ++ [{ slot := s.logWritingBuffer, count := 512, data := cs }] ∧
    (logBytesNoStuff e cs s).logWritingBuffer = 1 - s.logWritingBuffer ∧
    (logBytesNoStuff e cs s).logLen = 0 := by
  have hwf : WF s := ⟨hwb, by rw [h0]; simp [LOG_BUFFER_LEN]⟩
  have hpre : ∀ k, k < 512 →
      (logBytesNoStuff e (cs.take k) s).sent = s.sent ∧
      (logBytesNoStuff e (cs.take k) s).logWritingBuffer = s.logWritingBuffer ∧
      (logBytesNoStuff e (cs.take k) s).logLen = k ∧
      pending (logBytesNoStuff e (cs.take k) s) = cs.take k ∧
      WF (logBytesNoStuff e (cs.take k) s) := by
    intro k hk
    have hl : (cs.take k).length = k := by rw [List.length_take]; omega
    obtain ⟨a1, a2, a3, -, -, a6⟩ := logBytesNoStuff_noflush e (cs.take k) s hwf
      (by rw [hl, h0]; omega) (by intro j hj; rw [hl] at hj; exact hel j (by omega))
    refine ⟨a1, a2, by rw [a3, hl, h0]; omega, ?_, (logBytesNoStuff_stream e _ s hwf).2⟩
    have hp : pending s = [] := by simp [pending, h0, slotPrefix_zero]
    rw [a6, hp, List.nil_append]
    exact map_mod_of_lt _ (fun b hb' => hb b (List.mem_of_mem_take hb'))
  refine ⟨fun k hk => (hpre k hk).1, ?_⟩
  obtain ⟨b1, b2, b3, b4, b5⟩ := hpre 511 (by omega)
  have hsplit : cs = cs.take 511 ++ [cs.getLast (by
      intro h; rw [h] at hlen; simp at hlen)] := by
    have h1 : cs.take 511 = cs.dropLast := by
      rw [List.dropLast_eq_take, hlen]
    rw [h1, List.dropLast_append_getLast]
  have hc : cs.getLast (by intro h; rw [h] at hlen; simp at hlen) < 256 :=
    hb _ (List.getLast_mem _)
  generalize cs.getLast (by intro h; rw [h] at hlen; simp at hlen) = c at hsplit hc
  have hrun : logBytesNoStuff e cs s =
      logByteNoStuff e c (logBytesNoStuff e (cs.take 511) s) := by
    conv_lhs => rw [hsplit]
    rw [logBytesNoStuff_append]
    rfl
  rcases logByteNoStuff_cases e c _ b5 with ⟨-, -, -, h4, -⟩ | ⟨h1, h2, h3, -⟩
  · rw [b3] at h4; simp [LOG_BUFFER_LEN] at h4
  · rw [hrun, h1, h2, h3, b1, b2]
    refine ⟨?_, rfl, rfl⟩
    congr 1
    simp only [flushTx, b2, b3, b4, Nat.mod_eq_of_lt hc]
    rw [← hsplit]

/-- The flush of C5 after 512 appends of `0x55` from the initial state under a
clock that stands still. -/
theorem C5_flush_by_size_witness :
    (logBytesNoStuff quietEnv (List.replicate 512 0x55) init).sent =
      init.sent ++ [{ slot := init.logWritingBuffer, count := 512,
                      data := List.replicate 512 0x55 }] ∧
    (logBytesNoStuff quietEnv (List.replicate 512 0x55) init).logWritingBuffer =
      1 - init.logWritingBuffer :=
  have h := C5_flush_by_size quietEnv init (List.replicate 512 0x55) (by decide) rfl
    (List.length_replicate 512 0x55)
    (fun c hc => by rw [List.eq_of_mem_replicate hc]; decide)
    (fun k _ => by show sub32 0 0 ≤ MAX_LOG_INTERVAL_MS; decide)
  ⟨h.2.1, h.2.2.1⟩

/-- C6, as stated, fails: from the initial state under a clock reading 0 and
then 2000, the first append finds 0 ms elapsed and starts nothing, leaving one
byte pending; the second append finds 2000 ms elapsed and flushes, and the
flush hands over 2 bytes, not the 1 byte that was pending before the interval
was exceeded. -/
theorem C6_flush_by_time_counterexample :
    sub32 (lateEnv.clock 0) init.lastLogMillis ≤ MAX_LOG_INTERVAL_MS ∧
    sub32 (lateEnv.clock 1) init.lastLogMillis > MAX_LOG_INTERVAL_MS ∧
    (logByteNoStuff lateEnv 0xAA init).sent = [] ∧
    (pending (logByteNoStuff lateEnv 0xAA init)).length = 1 ∧
    (logByteNoStuff lateEnv 0xBB (logByteNoStuff lateEnv 0xAA init)).sent =
      [{ slot := 0, count := 2, data := [0xAA, 0xBB] }] ∧
    ¬ ((logByteNoStuff lateEnv 0xBB (logByteNoStuff lateEnv 0xAA init)).sent.map Tx.count =
      [(pending (logByteNoStuff lateEnv 0xAA init)).length]) := by
  decide

/-- C6 (flush by time, amended): from a state with cursor 0, if one byte is
appended while the elapsed time is at most 1000 ms and a second byte is
appended when the clock shows more than 1000 ms elapsed since the last flush,
the first append starts nothing and leaves its byte pending, and the second
append starts exactly one transfer, of the active slot and of 2 bytes: the
pending byte followed by the byte just appended.  The slot is then switched
and the cursor is 0. -/
theorem C6_flush_by_time (e : Env) (s : State) (c1 c2 : Nat)
    (hwb : s.logWritingBuffer < 2) (h0 : s.logLen = 0)
    (h1 : sub32 (e.clock s.ticks) s.lastLogMillis ≤ MAX_LOG_INTERVAL_MS)
    (h2 : sub32 (e.clock (s.ticks + 1)) s.lastLogMillis > MAX_LOG_INTERVAL_MS) :
    (logByteNoStuff e c1 s).sent = s.sent ∧
    pending (logByteNoStuff e c1 s) = [c1 % 256] ∧
    (logByteNoStuff e c2 (logByteNoStuff e c1 s)).sent =
      s.sent ++ [{ slot := s.logWritingBuffer, count := 2, data := [c1 % 256, c2 % 256] }] ∧
    (logByteNoStuff e c2 (logByteNoStuff e c1 s)).logWritingBuffer = 1 - s.logWritingBuffer ∧
    (logByteNoStuff e c2 (logByteNoStuff e c1 s)).logLen = 0 := by
  have hstep := logByteNoStuff_noflush e c1 s (by omega) h1
  have hp : pending (logByteNoStuff e c1 s) = [c1 % 256] := by
    rw [hstep]
    simp only [pending, h0]
    rw [show (0 : Nat) + 1 = 0 + 1 from rfl, slotPrefix_write, slotPrefix_zero, List.nil_append]
  refine ⟨by rw [hstep], hp, ?_⟩
  have hto := logByteNoStuff_timeout e c2 (logByteNoStuff e c1 s)
    (by rw [hstep]; simp only; omega) (by rw [hstep]; exact h2)
  have hsent := flush_sent e
    { logByteNoStuff e c1 s with
      logBuffer := writeCell (logByteNoStuff e c1 s).logBuffer
        (logByteNoStuff e c1 s).logWritingBuffer (logByteNoStuff e c1 s).logLen (c2 % 256),
      logLen := (logByteNoStuff e c1 s).logLen + 1,
      ticks := (logByteNoStuff e c1 s).ticks + 1 }
  rw [hto, hsent, flush_logWritingBuffer, flush_logLen]
  simp only
  rw [slotPrefix_write]
  have hwb1 : (logByteNoStuff e c1 s).logWritingBuffer = s.logWritingBuffer := by rw [hstep]
  have hl1 : (logByteNoStuff e c1 s).logLen = 1 := by rw [hstep]; simp only; omega
  have hs1 : (logByteNoStuff e c1 s).sent = s.sent := by rw [hstep]
  have hp' : slotPrefix (logByteNoStuff e c1 s).logBuffer
      (logByteNoStuff e c1 s).logWritingBuffer (logByteNoStuff e c1 s).logLen = [c1 % 256] := hp
  rw [hp', hwb1, hl1, hs1]
  exact ⟨rfl, toggle_of_lt _ hwb, trivial⟩

/-- The amended C6 at the initial state under a clock reading 0, then 2000. -/
theorem C6_flush_by_time_witness :
    (logByteNoStuff lateEnv 0xBB (logByteNoStuff lateEnv 0xAA init)).sent =
      init.sent ++ [{ slot := init.logWritingBuffer, count := 2,
                      data := [0xAA % 256, 0xBB % 256] }] :=
  (C6_flush_by_time lateEnv init 0xAA 0xBB (by decide) rfl (by decide) (by decide)).2.2.1

/-- C7 (buffer alternation): starting from the initial state, after any
sequence of appends under any clock, the `j`-th transfer started (counting
from 0) was given the base of slot `j % 2`: the transmitted slot alternates
0, 1, 0, 1, ... starting with slot 0, whatever caused each flush. -/
theorem C7_buffer_alternation (e : Env) (cs : List Nat) :
    (logBytesNoStuff e cs init).sent.map Tx.slot =
      (List.range (logBytesNoStuff e cs init).sent.length).map (· % 2) :=
  (Alternates_run e cs init WF_init ⟨rfl, rfl⟩).2

/-- C8 (RC-channel frame gating): for every state, clock and channel values,
when `lastRcChannels` is 0 a call of `logAllRcChannels` returns the state it
was given: both buffers, the cursor, the active slot, the last-flush time and
the list of transfers are unchanged, the clock is not read, and no byte is
appended. -/
theorem C8_rc_gating (e : Env) (rc : RcSource) (s : State) (h : rc.lastRcChannels = 0) :
    logAllRcChannels e rc s = s ∧ appended s (logAllRcChannels e rc s) = [] := by
  have h1 : logAllRcChannels e rc s = s := by
    unfold logAllRcChannels
    rw [if_pos (by rw [h, Nat.zero_mod])]
  rw [h1]
  exact ⟨rfl, by simp [appended]⟩

/-- The gate of C8 in the state reached by one append, with `lastRcChannels = 0`. -/
theorem C8_rc_gating_witness :
    appended (logByteNoStuff quietEnv 1 init)
      (logAllRcChannels quietEnv { lastRcChannels := 0, rcChannelsUs := fun _ => 1500 }
        (logByteNoStuff quietEnv 1 init)) = [] :=
  (C8_rc_gating quietEnv { lastRcChannels := 0, rcChannelsUs := fun _ => 1500 }
    (logByteNoStuff quietEnv 1 init) rfl).2

theorem pairs_length (f g : Nat → Nat) (l : List Nat) :
    ((l.map (fun i => [f i, g i])).flatten).length = 2 * l.length := by
  induction l with
  | nil => rfl
  | cons a l ih =>
    rw [List.map_cons, List.flatten_cons, List.length_append, ih, List.length_cons]
    simp only [List.length_cons, List.length_nil]
    omega

theorem rcFrameBytes_length (T : Nat) (ch : Nat → Nat) : (rcFrameBytes T ch).length = 37 := by
  unfold rcFrameBytes
  rw [List.length_append, List.length_append, pairs_length, List.length_range]
  rfl

theorem rcFrameBytes_special_le (T : Nat) (ch : Nat → Nat) :
    ((rcFrameBytes T ch).filter (fun b => b = 0x7E ∨ b = 0x7D)).length ≤ 36 := by
  unfold rcFrameBytes
  rw [List.filter_append, List.filter_append, List.length_append, List.length_append]
  have h1 := List.length_filter_le (fun b => decide (b = 0x7E ∨ b = 0x7D))
    [T / 2 ^ 24 % 256, T / 2 ^ 16 % 256, T / 2 ^ 8 % 256, T % 256]
  have h2 := List.length_filter_le (fun b => decide (b = 0x7E ∨ b = 0x7D))
    ((List.range 16).map (fun i => [ch i / 2 ^ 8 % 256, ch i % 256])).flatten
  rw [pairs_length, List.length_range] at h2
  have h3 : (List.filter (fun b => decide (b = 0x7E ∨ b = 0x7D)) [40]).length = 0 := by decide
  simp only [List.length_cons, List.length_nil] at h1
  omega

/-- C9 (RC-channel frame format): from any state between calls, when
`lastRcChannels` is non-zero the bytes `logAllRcChannels` appends are `0x7E`
followed by the stuffed form of the 37 logical bytes (the timestamp read
after the marker, most-significant byte first; the tag byte 40; the high and
the low byte of each of the 16 channels in order); un-stuffing everything
after the first byte gives those 37 bytes; the appended length is 38 plus the
number of logical bytes equal to `0x7E` or `0x7D`, hence between 38 and 74. -/
theorem C9_rc_frame_format (e : Env) (rc : RcSource) (s : State) (hs : WF s)
    (hrc : rc.lastRcChannels % 2 ^ 32 ≠ 0) :
    appended s (logAllRcChannels e rc s) =
      0x7E :: stuffAll (rcFrameBytes (rcTimestamp e s) (fun i => rc.rcChannelsUs i % 65536)) ∧
    (rcFrameBytes (rcTimestamp e s) (fun i => rc.rcChannelsUs i % 65536)).length = 37 ∧
    unstuff (appended s (logAllRcChannels e rc s)).tail =
      rcFrameBytes (rcTimestamp e s) (fun i => rc.rcChannelsUs i % 65536) ∧
    (appended s (logAllRcChannels e rc s)).length =
      38 + ((rcFrameBytes (rcTimestamp e s) (fun i => rc.rcChannelsUs i % 65536)).filter
        (fun b => b = 0x7E ∨ b = 0x7D)).length ∧
    38 ≤ (appended s (logAllRcChannels e rc s)).length ∧
    (appended s (logAllRcChannels e rc s)).length ≤ 74 := by
  have happ := appended_of_stream (logAllRcChannels_stream e rc s hs hrc).1
  have hlen := rcFrameBytes_length (rcTimestamp e s) (fun i => rc.rcChannelsUs i % 65536)
  have hsp := rcFrameBytes_special_le (rcTimestamp e s) (fun i => rc.rcChannelsUs i % 65536)
  have hl : (appended s (logAllRcChannels e rc s)).length =
      38 + ((rcFrameBytes (rcTimestamp e s) (fun i => rc.rcChannelsUs i % 65536)).filter
        (fun b => b = 0x7E ∨ b = 0x7D)).length := by
    rw [happ, List.length_cons, stuffAll_length, hlen]
    omega
  refine ⟨happ, hlen, ?_, hl, by omega, by omega⟩
  rw [happ, List.tail_cons, unstuff_stuffAll]

/-- The frame of C9 when every channel reads `0x7E7D`, so that all 32 channel
bytes are escaped. -/
theorem C9_rc_frame_format_witness :
    WF init ∧
    (appended init (logAllRcChannels lateEnv
      { lastRcChannels := 1, rcChannelsUs := fun _ => 0x7E7D } init)).length ≤ 74 :=
  ⟨WF_init, (C9_rc_frame_format lateEnv { lastRcChannels := 1, rcChannelsUs := fun _ => 0x7E7D }
    init WF_init (by decide)).2.2.2.2.2⟩

/-- C10 (no empty flush): in every run from the initial state, an append
either starts no transfer or starts exactly one, whose byte count is the
cursor at that moment (the cursor before the call plus the byte just stored);
the count of every transfer ever started is at least 1 and at most 512, the
transfer carries that many bytes, and a count of 512 means the cursor had
reached the capacity `LOG_BUFFER_LEN`. -/
theorem C10_no_empty_flush (e : Env) (cs : List Nat) (c : Nat) :
    ((logByteNoStuff e c (logBytesNoStuff e cs init)).sent = (logBytesNoStuff e cs init).sent ∨
      ∃ tx, (logByteNoStuff e c (logBytesNoStuff e cs init)).sent =
          (logBytesNoStuff e cs init).sent ++ [tx] ∧
        tx.count = (logBytesNoStuff e cs init).logLen + 1 ∧
        1 ≤ tx.count ∧ tx.count ≤ 512 ∧
        (tx.count = 512 → (logBytesNoStuff e cs init).logLen + 1 = LOG_BUFFER_LEN)) ∧
    ∀ tx ∈ (logBytesNoStuff e cs init).sent,
      1 ≤ tx.count ∧ tx.count ≤ 512 ∧ tx.data.length = tx.count := by
  have hwf := (logBytesNoStuff_stream e cs init WF_init).2
  refine ⟨?_, ?_⟩
  · rcases logByteNoStuff_cases e c _ hwf with ⟨h1, -⟩ | ⟨h1, -⟩
    · exact Or.inl h1
    · right
      have hlen := hwf.2
      simp only [LOG_BUFFER_LEN] at hlen
      refine ⟨flushTx c (logBytesNoStuff e cs init), h1, rfl, ?_, ?_, ?_⟩
      · simp only [flushTx]; omega
      · simp only [flushTx]; omega
      · intro h; simpa [flushTx, LOG_BUFFER_LEN] using h
  · intro tx htx
    exact TxOk_run e cs init WF_init (by intro t ht; simp [init] at ht) tx htx

/-- C11 (bit-exact escape rule): from any state between calls, for every byte
`c`, `logBytewithStuff` appends exactly `[0x7D, 0x5E]` when `c = 0x7E`, exactly
`[0x7D, 0x5D]` when `c = 0x7D`, and exactly `[c]` otherwise; so the bytes
appended for a sequence `S` number `|S|` plus the number of bytes of `S` equal
to `0x7E` or `0x7D`. -/
theorem C11_escape_rule (e : Env) (s : State) (hs : WF s) :
    (∀ c, c < 256 → appended s (logBytewithStuff e c s) =
      if c = 0x7E then [0x7D, 0x5E] else if c = 0x7D then [0x7D, 0x5D] else [c]) ∧
    (∀ S : List Nat, (∀ c ∈ S, c < 256) →
      (appended s (logBytesWithStuff e S s)).length =
        S.length + (S.filter (fun b => b = 0x7E ∨ b = 0x7D)).length) := by
  refine ⟨?_, ?_⟩
  · intro c hc
    rw [appended_of_stream (logBytewithStuff_stream e c s hs).1, Nat.mod_eq_of_lt hc]
    rfl
  · intro S hS
    rw [appended_of_stream (logBytesWithStuff_stream_of_lt e S s hs hS).1, stuffAll_length]

/-- The escape rule of C11 at the initial state, for the byte `0x7E`. -/
theorem C11_escape_rule_witness :
    WF init ∧ appended init (logBytewithStuff quietEnv 0x7E init) =
      (if (0x7E : Nat) = 0x7E then [0x7D, 0x5E]
        else if (0x7E : Nat) = 0x7D then [0x7D, 0x5D] else [0x7E]) :=
  ⟨WF_init, (C11_escape_rule quietEnv init WF_init).1 0x7E (by decide)⟩

/-- C12 (timestamp encoding): from any state between calls, for every 32-bit
value `T`, `logTimestampMs` is the run of `logBytewithStuff` over four logical
bytes `b3, b2, b1, b0` with `b3 * 2^24 + b2 * 2^16 + b1 * 2^8 + b0 = T`, it
appends their stuffed form, and un-stuffing the appended bytes and reading them
most-significant byte first gives `T`. -/
theorem C12_timestamp_encoding (e : Env) (s : State) (T : Nat) (hs : WF s)
    (hT : T < 2 ^ 32) :
    ∃ b3 b2 b1 b0 : Nat, b3 < 256 ∧ b2 < 256 ∧ b1 < 256 ∧ b0 < 256 ∧
      b3 * 2 ^ 24 + b2 * 2 ^ 16 + b1 * 2 ^ 8 + b0 = T ∧
      logTimestampMs e T s = logBytesWithStuff e [b3, b2, b1, b0] s ∧
      appended s (logTimestampMs e T s) = stuffAll [b3, b2, b1, b0] ∧
      fromBE (unstuff (appended s (logTimestampMs e T s))) = T := by
  have hm : ∀ x : Nat, x % 256 < 256 := fun x => Nat.mod_lt _ (by norm_num)
  have hcode := logTimestampMs_eq e T s
  have happ := appended_of_stream (logTimestampMs_stream e T s hs).1
  rw [timestampBytes_eq T hT] at hcode happ
  have hsum : T / 2 ^ 24 % 256 * 2 ^ 24 + T / 2 ^ 16 % 256 * 2 ^ 16 + T / 2 ^ 8 % 256 * 2 ^ 8
      + T % 256 = T := by
    norm_num at hT ⊢
    omega
  refine ⟨T / 2 ^ 24 % 256, T / 2 ^ 16 % 256, T / 2 ^ 8 % 256, T % 256, hm _, hm _, hm _,
    hm _, hsum, hcode, happ, ?_⟩
  rw [happ, unstuff_stuffAll]
  simp only [fromBE, List.foldl_cons, List.foldl_nil]
  norm_num at hT ⊢
  omega

/-- The timestamp of C12 for `T = 0x7E7D0001`, whose two high bytes are escaped. -/
theorem C12_timestamp_encoding_witness :
    WF init ∧ (0x7E7D0001 : Nat) < 2 ^ 32 ∧
    ∃ b3 b2 b1 b0 : Nat, b3 < 256 ∧ b2 < 256 ∧ b1 < 256 ∧ b0 < 256 ∧
      b3 * 2 ^ 24 + b2 * 2 ^ 16 + b1 * 2 ^ 8 + b0 = 0x7E7D0001 ∧
      logTimestampMs quietEnv 0x7E7D0001 init =
        logBytesWithStuff quietEnv [b3, b2, b1, b0] init ∧
      appended init (logTimestampMs quietEnv 0x7E7D0001 init) = stuffAll [b3, b2, b1, b0] ∧
      fromBE (unstuff (appended init (logTimestampMs quietEnv 0x7E7D0001 init))) =
        0x7E7D0001 :=
  ⟨WF_init, by decide, C12_timestamp_encoding quietEnv init 0x7E7D0001 WF_init (by decide)⟩

/-! ## The flush test -/

theorem elapsed_eq_sub32 (e : Env) (s : State) :
    elapsed e s = ((sub32 (e.clock s.ticks) s.lastLogMillis : Nat) : Int) := by
  unfold elapsed sub32
  have h1 : e.clock s.ticks % 2 ^ 32 < 2 ^ 32 := Nat.mod_lt _ (by norm_num)
  have h2 : s.lastLogMillis % 2 ^ 32 < 2 ^ 32 := Nat.mod_lt _ (by norm_num)
  generalize e.clock s.ticks % 2 ^ 32 = x at h1 ⊢
  generalize s.lastLogMillis % 2 ^ 32 = y at h2 ⊢
  norm_num at h1 h2 ⊢
  omega

theorem elapsed_gt_iff (e : Env) (s : State) :
    elapsed e s > 1000 ↔ sub32 (e.clock s.ticks) s.lastLogMillis > MAX_LOG_INTERVAL_MS := by
  rw [elapsed_eq_sub32]
  unfold MAX_LOG_INTERVAL_MS
  omega

/-- What one append does to the list of transfers and to the cursor, for every
state whose cursor is inside the slot. -/
theorem logByteNoStuff_flush_iff (e : Env) (c : Nat) (s : State) (hlen : s.logLen < 512) :
    ((s.logLen + 1 = 512 ∨ elapsed e s > 1000) →
      (logByteNoStuff e c s).sent = s.sent ++ [flushTx c s] ∧
        (logByteNoStuff e c s).logLen = 0) ∧
    (¬ (s.logLen + 1 = 512 ∨ elapsed e s > 1000) →
      (logByteNoStuff e c s).sent = s.sent ∧
        (logByteNoStuff e c s).logLen = s.logLen + 1) := by
  rw [elapsed_gt_iff]
  by_cases hfull : s.logLen + 1 = 512
  · refine ⟨fun _ => ?_, fun h => absurd (Or.inl hfull) h⟩
    rw [logByteNoStuff_full e c s hfull, flush_sent, flush_logLen]
    refine ⟨?_, rfl⟩
    simp [flushTx, pending, slotPrefix_write]
  · by_cases hel : sub32 (e.clock s.ticks) s.lastLogMillis > MAX_LOG_INTERVAL_MS
    · refine ⟨fun _ => ?_, fun h => absurd (Or.inr hel) h⟩
      rw [logByteNoStuff_timeout e c s (by omega) hel, flush_sent, flush_logLen]
      refine ⟨?_, rfl⟩
      simp [flushTx, pending, slotPrefix_write]
    · refine ⟨fun h => ?_, fun _ => ?_⟩
      · rcases h with h | h
        · exact absurd h hfull
        · exact absurd h hel
      · rw [logByteNoStuff_noflush e c s (by omega) (by omega)]
        exact ⟨rfl, rfl⟩

/-- C15 (flush condition, exactly): for every state with cursor below 512 and
every clock reading, `logByteNoStuff` starts a transfer (and resets the cursor)
if and only if `cursor + 1 = 512` or the elapsed time
`(now - lastLogMillis) mod 2^32` is greater than 1000; otherwise it starts
none.  The elapsed time is taken modulo `2^32`: when the slot is not full, a
reading equal to `lastLogMillis + 1000` modulo `2^32` does not flush and a
reading equal to `lastLogMillis + 1001` modulo `2^32` does, also when the
clock has wrapped. -/
theorem C15_flush_condition (e : Env) (c : Nat) (s : State) (hlen : s.logLen < 512) :
    ((logByteNoStuff e c s).sent ≠ s.sent ↔ (s.logLen + 1 = 512 ∨ elapsed e s > 1000)) ∧
    ((s.logLen + 1 = 512 ∨ elapsed e s > 1000) →
      (logByteNoStuff e c s).sent = s.sent ++ [flushTx c s] ∧
        (logByteNoStuff e c s).logLen = 0) ∧
    (s.logLen + 1 < 512 → e.clock s.ticks % 2 ^ 32 = (s.lastLogMillis % 2 ^ 32 + 1000) % 2 ^ 32 →
      (logByteNoStuff e c s).sent = s.sent) ∧
    (e.clock s.ticks % 2 ^ 32 = (s.lastLogMillis % 2 ^ 32 + 1001) % 2 ^ 32 →
      (logByteNoStuff e c s).sent = s.sent ++ [flushTx c s]) := by
  obtain ⟨hyes, hno⟩ := logByteNoStuff_flush_iff e c s hlen
  have hlast : s.lastLogMillis % 2 ^ 32 < 2 ^ 32 := Nat.mod_lt _ (by norm_num)
  refine ⟨⟨fun h => ?_, fun h => ?_⟩, hyes, fun h1 h2 => ?_, fun h2 => ?_⟩
  · by_contra hc
    exact h (hno hc).1
  · rw [(hyes h).1]
    intro heq
    have := congrArg List.length heq
    simp at this
  · apply (hno _).1
    intro h
    rcases h with h | h
    · omega
    · unfold elapsed at h
      rw [h2] at h
      generalize s.lastLogMillis % 2 ^ 32 = y at hlast h
      norm_num at hlast h
      omega
  · apply (hyes (Or.inr _)).1
    unfold elapsed
    rw [h2]
    generalize s.lastLogMillis % 2 ^ 32 = y at hlast ⊢
    norm_num at hlast ⊢
    omega

/-- The flush test of C15 after the clock has wrapped: `lastLogMillis` is
`2^32 - 500` and the clock reads 600, 1100 ms later. -/
theorem C15_flush_condition_witness :
    ({ init with lastLogMillis := 2 ^ 32 - 500 } : State).logLen < 512 ∧
    (logByteNoStuff (clockAt 600) 7 { init with lastLogMillis := 2 ^ 32 - 500 }).sent ≠
      ({ init with lastLogMillis := 2 ^ 32 - 500 } : State).sent :=
  ⟨by decide,
    (C15_flush_condition (clockAt 600) 7 { init with lastLogMillis := 2 ^ 32 - 500 }
      (by decide)).1.mpr (Or.inr (by decide))⟩

/-- C16 (an append without flush changes one cell): for every state with
cursor below 511 and every clock reading with elapsed time at most 1000 ms,
`logByteNoStuff(c)` stores `c` at index `cursor` of the active slot, increases
the cursor by exactly 1, starts no transfer and does not poll the transmitter,
and leaves the active slot index, the last-flush time, the other slot and
every other cell of the active slot unchanged. -/
theorem C16_append_frame (e : Env) (c : Nat) (s : State) (hc : c < 256)
    (hlen : s.logLen < 511) (hel : elapsed e s ≤ 1000) :
    (logByteNoStuff e c s).logBuffer s.logWritingBuffer s.logLen = c ∧
    (logByteNoStuff e c s).logLen = s.logLen + 1 ∧
    (logByteNoStuff e c s).sent = s.sent ∧
    (logByteNoStuff e c s).polls = s.polls ∧
    (logByteNoStuff e c s).logWritingBuffer = s.logWritingBuffer ∧
    (logByteNoStuff e c s).lastLogMillis = s.lastLogMillis ∧
    (∀ b i, ¬ (b = s.logWritingBuffer ∧ i = s.logLen) →
      (logByteNoStuff e c s).logBuffer b i = s.logBuffer b i) := by
  have hel' : sub32 (e.clock s.ticks) s.lastLogMillis ≤ MAX_LOG_INTERVAL_MS := by
    have := elapsed_gt_iff e s
    omega
  rw [logByteNoStuff_noflush e c s (by omega) hel']
  refine ⟨?_, rfl, rfl, rfl, rfl, rfl, ?_⟩
  · simp [writeCell, Nat.mod_eq_of_lt hc]
  · intro b i hbi
    simp only [writeCell, if_neg hbi]

/-- The append of C16 at the initial state under a clock that stands still. -/
theorem C16_append_frame_witness :
    (logByteNoStuff quietEnv 0x42 init).logBuffer init.logWritingBuffer init.logLen = 0x42 ∧
    (logByteNoStuff quietEnv 0x42 init).logLen = init.logLen + 1 ∧
    (logByteNoStuff quietEnv 0x42 init).sent = init.sent :=
  have h := C16_append_frame quietEnv 0x42 init (by decide) (by decide) (by decide)
  ⟨h.1, h.2.1, h.2.2.1⟩

/-! ## The varint encoder on every 32-bit value -/

theorem byteOfShift_eq (V : Int) :
    byteOfShift V 0 = (V % 2 ^ 32).toNat % 256 ∧
    byteOfShift V 8 = (V % 2 ^ 32).toNat / 2 ^ 8 % 256 ∧
    byteOfShift V 16 = (V % 2 ^ 32).toNat / 2 ^ 16 % 256 ∧
    byteOfShift V 24 = (V % 2 ^ 32).toNat / 2 ^ 24 % 256 := by
  unfold byteOfShift
  simp only [Int.shiftRight_eq_div_pow]
  norm_num
  refine ⟨?_, ?_, ?_, ?_⟩ <;> omega

theorem toNat_emod_lt (V : Int) : (V % 2 ^ 32).toNat < 2 ^ 32 := by
  norm_num
  omega

/-- The logical bytes of `logint32withStuff` in terms of the unsigned reading
`U` of the value. -/
theorem int32Bytes_eq (type : Nat) (V : Int) (U : Nat) (hU : (V % 2 ^ 32).toNat = U) :
    int32Bytes type V =
      if U < 256 then [(type % 256 ||| 0xC0) % 256, U % 256]
      else if U < 256 ^ 2 then [(type % 256 ||| 0x80) % 256, U / 2 ^ 8 % 256, U % 256]
      else if U < 256 ^ 3 then
        [(type % 256 ||| 0x40) % 256, U / 2 ^ 16 % 256, U / 2 ^ 8 % 256, U % 256]
      else [type % 256, U / 2 ^ 24 % 256, U / 2 ^ 16 % 256, U / 2 ^ 8 % 256, U % 256] := by
  have hlt : U < 2 ^ 32 := by rw [← hU]; exact toNat_emod_lt V
  obtain ⟨b0, b8, b16, b24⟩ := byteOfShift_eq V
  unfold int32Bytes
  simp only [b0, b8, b16, b24, hU, mask8 U hlt, mask16 U hlt, mask24 U hlt]

theorem tag_bits : ∀ t, t < 64 →
    (t % 256 ||| 0xC0) % 256 = t + 0xC0 ∧ (t % 256 ||| 0x80) % 256 = t + 0x80 ∧
    (t % 256 ||| 0x40) % 256 = t + 0x40 ∧ t % 256 = t := by
  decide

theorem toInt32_of_range (V : Int) (U : Nat) (hU : (V % 2 ^ 32).toNat = U)
    (hlo : -2 ^ 31 ≤ V) (hhi : V < 2 ^ 31) : toInt32 U = V := by
  unfold toInt32
  norm_num at hU hlo hhi ⊢
  split <;> omega

/-- The tag byte and the payload of every encoded value, and their decoding. -/
theorem int32Bytes_decode (t : Nat) (V : Int) (ht : t < 64)
    (hlo : -2 ^ 31 ≤ V) (hhi : V < 2 ^ 31) :
    ∃ tag payload, int32Bytes t V = tag :: payload ∧ tag % 64 = t ∧
      tag / 64 = 4 - payload.length ∧ 1 ≤ payload.length ∧ payload.length ≤ 4 ∧
      decodeInt32 (tag :: payload) = some (t, V, []) := by
  obtain ⟨t1, t2, t3, t4⟩ := tag_bits t ht
  have hV := toInt32_of_range V _ rfl hlo hhi
  have hb := int32Bytes_eq t V _ rfl
  have hlt := toNat_emod_lt V
  generalize (V % 2 ^ 32).toNat = U at hV hb hlt
  rw [t1, t2, t3, t4] at hb
  by_cases c1 : U < 256
  · rw [if_pos c1] at hb
    refine ⟨_, _, hb, by omega, by simp; omega, by simp, by simp, ?_⟩
    have h64 : (t + 0xC0) / 64 = 3 := by omega
    have hf : fromBE [U % 256] = U := by simp [fromBE]; omega
    have ht' : (t + 0xC0) % 64 = t := by omega
    simp only [decodeInt32, h64, ht']
    simp [hf, hV]
  · by_cases c2 : U < 256 ^ 2
    · rw [if_neg c1, if_pos c2] at hb
      refine ⟨_, _, hb, by omega, by simp; omega, by simp, by simp, ?_⟩
      have h64 : (t + 0x80) / 64 = 2 := by omega
      have hf : fromBE [U / 256 % 256, U % 256] = U := by
        simp [fromBE]; norm_num at c2; omega
      have ht' : (t + 0x80) % 64 = t := by omega
      simp only [decodeInt32, h64, ht']
      simp [hf, hV]
    · by_cases c3 : U < 256 ^ 3
      · rw [if_neg c1, if_neg c2, if_pos c3] at hb
        refine ⟨_, _, hb, by omega, by simp; omega, by simp, by simp, ?_⟩
        have h64 : (t + 0x40) / 64 = 1 := by omega
        have hf : fromBE [U / 65536 % 256, U / 256 % 256, U % 256] = U := by
          simp [fromBE]; norm_num at c3; omega
        have ht' : (t + 0x40) % 64 = t := by omega
        simp only [decodeInt32, h64, ht']
        simp [hf, hV]
      · rw [if_neg c1, if_neg c2, if_neg c3] at hb
        refine ⟨_, _, hb, by omega, by simp; omega, by simp, by simp, ?_⟩
        have h64 : t / 64 = 0 := by omega
        have hf : fromBE [U / 16777216 % 256, U / 65536 % 256, U / 256 % 256, U % 256] = U := by
          simp [fromBE]; norm_num at hlt; omega
        have ht' : t % 64 = t := by omega
        simp only [decodeInt32, h64, ht']
        simp [hf, hV]

/-- C17 (negative values): for every tag byte `type` and every negative 32-bit
value `V`, `logint32withStuff` takes the 4-byte class: its logical bytes are
the tag byte unmodified followed by exactly four payload bytes which, read
most-significant byte first as a 32-bit two's-complement integer, equal `V`;
so no negative value is encoded with 1, 2 or 3 payload bytes.  The call is the
run of `logBytewithStuff` over these five bytes and appends their stuffed
form. -/
theorem C17_negative_values (e : Env) (s : State) (type : Nat) (V : Int) (hs : WF s)
    (ht : type < 256) (hlo : -2 ^ 31 ≤ V) (hneg : V < 0) :
    ∃ payload : List Nat,
      int32Bytes type V = type :: payload ∧ payload.length = 4 ∧
      (∀ b ∈ payload, b < 256) ∧ toInt32 (fromBE payload) = V ∧
      logint32withStuff e type V s = logBytesWithStuff e (type :: payload) s ∧
      appended s (logint32withStuff e type V s) = stuffAll (type :: payload) := by
  have hV := toInt32_of_range V _ rfl hlo (by omega)
  have hb := int32Bytes_eq type V _ rfl
  have hlt := toNat_emod_lt V
  have hge : 2 ^ 31 ≤ (V % 2 ^ 32).toNat := by
    norm_num at hlo ⊢
    omega
  have hcode := logint32withStuff_eq e type V s
  have happ := appended_of_stream (logint32withStuff_stream e type V s hs).1
  generalize (V % 2 ^ 32).toNat = U at hV hb hlt hge
  norm_num at hge hlt
  have c1 : ¬ U < 256 := by omega
  have c2 : ¬ U < 256 ^ 2 := by norm_num; omega
  have c3 : ¬ U < 256 ^ 3 := by norm_num; omega
  rw [if_neg c1, if_neg c2, if_neg c3, Nat.mod_eq_of_lt ht] at hb
  rw [hb] at hcode happ
  have hf : fromBE [U / 2 ^ 24 % 256, U / 2 ^ 16 % 256, U / 2 ^ 8 % 256, U % 256] = U := by
    simp [fromBE]; omega
  refine ⟨_, hb, rfl, ?_, by rw [hf]; exact hV, hcode, happ⟩
  intro b hb'
  simp only [List.mem_cons, List.mem_singleton, List.not_mem_nil, or_false] at hb'
  rcases hb' with h | h | h | h <;> (rw [h]; exact Nat.mod_lt _ (by norm_num))

/-- The encoding of C17 for `V = -2` with tag 9, from the initial state. -/
theorem C17_negative_values_witness :
    WF init ∧ (9 : Nat) < 256 ∧ (-2 ^ 31 : Int) ≤ -2 ∧ (-2 : Int) < 0 ∧
    ∃ payload : List Nat,
      int32Bytes 9 (-2) = 9 :: payload ∧ payload.length = 4 ∧
      (∀ b ∈ payload, b < 256) ∧ toInt32 (fromBE payload) = -2 ∧
      logint32withStuff quietEnv 9 (-2) init = logBytesWithStuff quietEnv (9 :: payload) init ∧
      appended init (logint32withStuff quietEnv 9 (-2) init) = stuffAll (9 :: payload) :=
  ⟨WF_init, by decide, by decide, by decide,
    C17_negative_values quietEnv init 9 (-2) WF_init (by decide) (by decide) (by decide)⟩

/-- C18 (frame-start marker uniqueness in an RC frame): from any state between
calls, when `lastRcChannels` is non-zero the bytes appended by one call of
`logAllRcChannels` begin with `0x7E` and contain no other `0x7E`: the byte
`0x7E` occurs exactly once, as the first byte appended. -/
theorem C18_marker_unique (e : Env) (rc : RcSource) (s : State) (hs : WF s)
    (hrc : rc.lastRcChannels % 2 ^ 32 ≠ 0) :
    ∃ rest : List Nat, appended s (logAllRcChannels e rc s) = 0x7E :: rest ∧
      (∀ b ∈ rest, b ≠ 0x7E) ∧
      (appended s (logAllRcChannels e rc s)).count 0x7E = 1 := by
  have happ := appended_of_stream (logAllRcChannels_stream e rc s hs hrc).1
  have hno := stuffAll_ne_7E
    (rcFrameBytes (rcTimestamp e s) (fun i => rc.rcChannelsUs i % 65536))
  refine ⟨_, happ, hno, ?_⟩
  rw [happ, List.count_cons_self, List.count_eq_zero_of_not_mem]
  intro hmem
  exact hno _ hmem rfl

/-- The frame of C18 when every channel reads `0x7E7E`. -/
theorem C18_marker_unique_witness :
    WF init ∧
    ∃ rest : List Nat,
      appended init (logAllRcChannels lateEnv
        { lastRcChannels := 1, rcChannelsUs := fun _ => 0x7E7E } init) = 0x7E :: rest ∧
      (∀ b ∈ rest, b ≠ 0x7E) ∧
      (appended init (logAllRcChannels lateEnv
        { lastRcChannels := 1, rcChannelsUs := fun _ => 0x7E7E } init)).count 0x7E = 1 :=
  ⟨WF_init, C18_marker_unique lateEnv { lastRcChannels := 1, rcChannelsUs := fun _ => 0x7E7E }
    init WF_init (by decide)⟩

/-- C19 (varint tag decodability): for every type tag `t < 0x40` and every
32-bit value `V`, the logical bytes of `logint32withStuff` are a tag byte
followed by 1 to 4 payload bytes; the low six bits of the tag byte are `t` and
its top two bits are `11`, `10`, `01`, `00` exactly when 1, 2, 3, 4 payload
bytes follow; the decoder that reads the payload length from the top two bits
recovers `t` and `V`; and a call with any tag `t' < 0x40` and 32-bit value `V'`
that emits the same logical bytes has `t' = t` and `V' = V`. -/
theorem C19_tag_decodable (e : Env) (s : State) (t : Nat) (V : Int) (ht : t < 0x40)
    (hlo : -2 ^ 31 ≤ V) (hhi : V < 2 ^ 31) :
    logint32withStuff e t V s = logBytesWithStuff e (int32Bytes t V) s ∧
    (∃ tag payload, int32Bytes t V = tag :: payload ∧ tag % 64 = t ∧
      1 ≤ payload.length ∧ payload.length ≤ 4 ∧
      (tag / 64 = 3 ↔ payload.length = 1) ∧ (tag / 64 = 2 ↔ payload.length = 2) ∧
      (tag / 64 = 1 ↔ payload.length = 3) ∧ (tag / 64 = 0 ↔ payload.length = 4)) ∧
    decodeInt32 (int32Bytes t V) = some (t, V, []) ∧
    (∀ (t' : Nat) (V' : Int), t' < 0x40 → -2 ^ 31 ≤ V' → V' < 2 ^ 31 →
      int32Bytes t' V' = int32Bytes t V → t' = t ∧ V' = V) := by
  obtain ⟨tag, payload, h1, h2, h3, h4, h5, h6⟩ := int32Bytes_decode t V ht hlo hhi
  have hdec : decodeInt32 (int32Bytes t V) = some (t, V, []) := by rw [h1]; exact h6
  refine ⟨logint32withStuff_eq e t V s,
    ⟨tag, payload, h1, h2, h4, h5, by omega, by omega, by omega, by omega⟩, hdec, ?_⟩
  intro t' V' ht' hlo' hhi' heq
  obtain ⟨tag', payload', g1, -, -, -, -, g6⟩ := int32Bytes_decode t' V' ht' hlo' hhi'
  rw [← g1, heq, hdec] at g6
  simp only [Option.some.injEq, Prod.mk.injEq, and_true] at g6
  exact ⟨g6.1.symm, g6.2.symm⟩

/-- The decoding of C19 for tag `0x3E` and value 300: the tag byte is `0xBE`
and two payload bytes follow. -/
theorem C19_tag_decodable_witness :
    (0x3E : Nat) < 0x40 ∧ (-2 ^ 31 : Int) ≤ 300 ∧ (300 : Int) < 2 ^ 31 ∧
    decodeInt32 (int32Bytes 0x3E 300) = some (0x3E, 300, []) :=
  ⟨by decide, by decide, by decide,
    (C19_tag_decodable quietEnv init 0x3E 300 (by decide) (by decide) (by decide)).2.2.1⟩

/-! ## Every logging call is a sequence of primitive actions -/

theorem runOps_nil (e : Env) (s : State) : runOps e [] s = s := rfl

theorem runOps_cons (e : Env) (o : Op) (ops : List Op) (s : State) :
    runOps e (o :: ops) s = runOps e ops (step e o s) := rfl

theorem runOps_append (e : Env) (a b : List Op) (s : State) :
    runOps e (a ++ b) s = runOps e b (runOps e a s) := by
  simp [runOps, List.foldl_append]

theorem logBytesNoStuff_eq_runOps (e : Env) (cs : List Nat) (s : State) :
    logBytesNoStuff e cs s = runOps e (cs.map Op.append) s := by
  induction cs generalizing s with
  | nil => rfl
  | cons c cs ih => rw [logBytesNoStuff_cons, ih, List.map_cons, runOps_cons]; rfl

theorem logBytewithStuff_isRun (e : Env) (c : Nat) (s : State) :
    ∃ ops, logBytewithStuff e c s = runOps e ops s :=
  ⟨_, by rw [logBytewithStuff_eq, logBytesNoStuff_eq_runOps]⟩

theorem logBytesWithStuff_isRun (e : Env) (S : List Nat) (s : State) :
    ∃ ops, logBytesWithStuff e S s = runOps e ops s := by
  induction S generalizing s with
  | nil => exact ⟨[], rfl⟩
  | cons c S ih =>
    obtain ⟨o1, h1⟩ := logBytewithStuff_isRun e c s
    obtain ⟨o2, h2⟩ := ih (logBytewithStuff e c s)
    exact ⟨o1 ++ o2, by rw [logBytesWithStuff_cons, h2, h1, runOps_append]⟩

theorem logRcChannels_isRun (e : Env) (rc : RcSource) (l : List Nat) (s : State) :
    ∃ ops, l.foldl (logRcChannel e rc) s = runOps e ops s := by
  induction l generalizing s with
  | nil => exact ⟨[], rfl⟩
  | cons i l ih =>
    obtain ⟨o1, h1⟩ := logBytewithStuff_isRun e ((rc.rcChannelsUs i % 65536) >>> 8) s
    obtain ⟨o2, h2⟩ := logBytewithStuff_isRun e (rc.rcChannelsUs i % 65536)
      (logBytewithStuff e ((rc.rcChannelsUs i % 65536) >>> 8) s)
    obtain ⟨o3, h3⟩ := ih (logRcChannel e rc s i)
    refine ⟨o1 ++ o2 ++ o3, ?_⟩
    rw [List.foldl_cons, h3, runOps_append, runOps_append, ← h1, ← h2]
    rfl

theorem logAllRcChannels_isRun (e : Env) (rc : RcSource) (s : State) :
    ∃ ops, logAllRcChannels e rc s = runOps e ops s := by
  by_cases hrc : rc.lastRcChannels % 2 ^ 32 = 0
  · exact ⟨[], by unfold logAllRcChannels; rw [if_pos hrc]; rfl⟩
  · obtain ⟨o1, h1⟩ := logBytesWithStuff_isRun e
      (timestampBytes (millisRp e (logByteNoStuff e 0x7E s)).1)
      (millisRp e (logByteNoStuff e 0x7E s)).2
    rw [← logTimestampMs_eq] at h1
    obtain ⟨o2, h2⟩ := logRcChannels_isRun e rc (List.range 16)
      (logByteNoStuff e 40 (logTimestampMs e (millisRp e (logByteNoStuff e 0x7E s)).1
        (millisRp e (logByteNoStuff e 0x7E s)).2))
    refine ⟨[Op.append 0x7E, Op.readClock] ++ o1 ++ [Op.append 40] ++ o2, ?_⟩
    unfold logAllRcChannels
    rw [if_neg hrc]
    simp only
    have hA : runOps e [Op.append 0x7E, Op.readClock] s =
        (millisRp e (logByteNoStuff e 0x7E s)).2 := rfl
    rw [h2, runOps_append, runOps_append, runOps_append, hA, ← h1]
    rfl

/-- Every call of the logging interface is a sequence of calls of
`logByteNoStuff` and clock readings. -/
theorem exec_isRun (e : Env) (call : Call) (s : State) :
    ∃ ops, exec e call s = runOps e ops s := by
  cases call with
  | byteNoStuff c => exact ⟨[Op.append c], rfl⟩
  | byteWithStuff c => exact logBytewithStuff_isRun e c s
  | int32WithStuff type value =>
    obtain ⟨ops, h⟩ := logBytesWithStuff_isRun e (int32Bytes type value) s
    exact ⟨ops, by rw [← h]; exact logint32withStuff_eq e type value s⟩
  | timestampMs value =>
    obtain ⟨ops, h⟩ := logBytesWithStuff_isRun e (timestampBytes value) s
    exact ⟨ops, by rw [← h]; exact logTimestampMs_eq e value s⟩
  | allRcChannels rc => exact logAllRcChannels_isRun e rc s

theorem execAll_isRun (e : Env) (calls : List Call) (s : State) :
    ∃ ops, execAll e calls s = runOps e ops s := by
  induction calls generalizing s with
  | nil => exact ⟨[], rfl⟩
  | cons call calls ih =>
    obtain ⟨o1, h1⟩ := exec_isRun e call s
    obtain ⟨o2, h2⟩ := ih (exec e call s)
    refine ⟨o1 ++ o2, ?_⟩
    rw [runOps_append, ← h1, ← h2]
    rfl

/-! ## Invariants of every run -/

theorem WF_step (e : Env) (o : Op) (s : State) (h : WF s) : WF (step e o s) := by
  cases o with
  | append c => exact (logByteNoStuff_stream e c s h).2
  | readClock => exact h

theorem WF_runOps (e : Env) (ops : List Op) (s : State) (h : WF s) : WF (runOps e ops s) := by
  induction ops generalizing s with
  | nil => exact h
  | cons o ops ih => exact ih _ (WF_step e o s h)

theorem heldSlot_append (l : List Tx) (tx : Tx) : (l ++ [tx]).getLast?.map Tx.slot = some tx.slot := by
  simp

theorem owner_step (e : Env) (o : Op) (s : State) (h : WF s)
    (ho : ∀ k, heldSlot s = some k → k ≠ s.logWritingBuffer) :
    ∀ k, heldSlot (step e o s) = some k → k ≠ (step e o s).logWritingBuffer := by
  cases o with
  | readClock => exact ho
  | append c =>
    show ∀ k, heldSlot (logByteNoStuff e c s) = some k →
      k ≠ (logByteNoStuff e c s).logWritingBuffer
    rcases logByteNoStuff_cases e c s h with ⟨h1, h2, -⟩ | ⟨h1, h2, -⟩
    · intro k hk
      rw [h2]
      apply ho
      unfold heldSlot at hk ⊢
      rwa [h1] at hk
    · intro k hk
      unfold heldSlot at hk
      rw [h1, heldSlot_append] at hk
      have hk' : k = s.logWritingBuffer := by
        simp only [flushTx, Option.some.injEq] at hk
        exact hk.symm
      have hwb := h.1
      rw [h2, hk']
      omega

theorem owner_runOps (e : Env) (ops : List Op) (s : State) (h : WF s)
    (ho : ∀ k, heldSlot s = some k → k ≠ s.logWritingBuffer) :
    ∀ k, heldSlot (runOps e ops s) = some k → k ≠ (runOps e ops s).logWritingBuffer := by
  induction ops generalizing s with
  | nil => exact ho
  | cons o ops ih => exact ih _ (WF_step e o s h) (owner_step e o s h ho)

theorem owner_init : ∀ k, heldSlot init = some k → k ≠ init.logWritingBuffer := by
  intro k hk
  simp [heldSlot, init] at hk

theorem flush_polls (e : Env) (s : State) :
    (flush e s).polls = s.polls + e.busyPolls s.sent.length + 1 := by
  obtain ⟨-, -, -, -, -, -, h7⟩ := waitDmaIdle_fields (e.busyPolls s.sent.length) s
  simp [flush, millisRp, h7]

/-- The store of `logByteNoStuff`: whatever else the call does, the buffers
afterwards differ from the buffers before in the cell at the cursor of the
active slot only. -/
theorem logByteNoStuff_logBuffer (e : Env) (c : Nat) (s : State) :
    (logByteNoStuff e c s).logBuffer =
      writeCell s.logBuffer s.logWritingBuffer s.logLen (c % 256) := by
  simp only [logByteNoStuff]
  split
  · rw [flush_logBuffer]
  · split
    · rw [flush_logBuffer]; rfl
    · rfl

/-! ## The order of the interactions with the DMA engine -/

theorem waitDmaIdle_dmaLog (n : Nat) (s : State) :
    (waitDmaIdle n s).dmaLog =
      s.dmaLog ++ List.replicate n DmaEvent.answeredBusy ++ [DmaEvent.answeredIdle] := by
  induction n generalizing s with
  | zero => simp [waitDmaIdle]
  | succ n ih =>
    simp only [waitDmaIdle]
    rw [ih]
    simp [List.replicate_succ]

theorem flush_dmaLog (e : Env) (s : State) :
    (flush e s).dmaLog =
      s.dmaLog ++ flushRound (e.busyPolls s.sent.length) s.logWritingBuffer s.logLen := by
  obtain ⟨-, h2, h3, -, -, -, -⟩ := waitDmaIdle_fields (e.busyPolls s.sent.length) s
  have h8 := waitDmaIdle_dmaLog (e.busyPolls s.sent.length) s
  simp [flush, millisRp, h2, h3, h8, flushRound]

/-- One append either starts no transfer and has no interaction with the DMA
engine, or starts one transfer and its interactions are one flush round: the
busy answers, the idle answer, then the start. -/
theorem logByteNoStuff_dmaLog (e : Env) (c : Nat) (s : State) (hlen : s.logLen < 512) :
    ((logByteNoStuff e c s).sent = s.sent ∧ (logByteNoStuff e c s).dmaLog = s.dmaLog) ∨
    ((logByteNoStuff e c s).sent = s.sent ++ [flushTx c s] ∧
      (logByteNoStuff e c s).dmaLog = s.dmaLog ++
        flushRound (e.busyPolls s.sent.length) s.logWritingBuffer (s.logLen + 1)) := by
  by_cases hfull : s.logLen + 1 = 512
  · right
    rw [logByteNoStuff_full e c s hfull, flush_sent, flush_dmaLog]
    refine ⟨?_, rfl⟩
    simp [flushTx, pending, slotPrefix_write]
  · by_cases hel : sub32 (e.clock s.ticks) s.lastLogMillis > MAX_LOG_INTERVAL_MS
    · right
      rw [logByteNoStuff_timeout e c s (by omega) hel, flush_sent, flush_dmaLog]
      refine ⟨?_, rfl⟩
      simp [flushTx, pending, slotPrefix_write]
    · left
      rw [logByteNoStuff_noflush e c s (by omega) (by omega)]
      exact ⟨rfl, rfl⟩

theorem StartsAfterIdle_nil : StartsAfterIdle [] := by
  intro pre slot count post h
  simp at h

theorem StartsAfterIdle_snoc (log : List DmaEvent) (x : DmaEvent) (h : StartsAfterIdle log)
    (hx : ∀ slot count, x ≠ DmaEvent.started slot count) : StartsAfterIdle (log ++ [x]) := by
  intro pre slot count post heq
  rcases List.eq_nil_or_concat post with hp | ⟨q, z, hp⟩
  · subst hp
    have := List.append_inj_right' heq rfl
    simp only [List.cons.injEq, and_true] at this
    exact absurd this (hx slot count)
  · subst hp
    have h1 : log ++ [x] = (pre ++ DmaEvent.started slot count :: q) ++ [z] := by
      rw [heq]; simp
    exact h pre slot count q (List.append_inj_left' h1 rfl)

theorem StartsAfterIdle_replicate (log : List DmaEvent) (n : Nat) (h : StartsAfterIdle log) :
    StartsAfterIdle (log ++ List.replicate n DmaEvent.answeredBusy) := by
  induction n with
  | zero => simpa using h
  | succ n ih =>
    rw [List.replicate_succ', ← List.append_assoc]
    exact StartsAfterIdle_snoc _ _ ih (by intro slot count hc; cases hc)

theorem StartsAfterIdle_round (log : List DmaEvent) (n slot count : Nat)
    (h : StartsAfterIdle log) : StartsAfterIdle (log ++ flushRound n slot count) := by
  have h1 := StartsAfterIdle_snoc _ DmaEvent.answeredIdle (StartsAfterIdle_replicate log n h)
    (by intro a b hc; cases hc)
  intro pre a b post heq
  rcases List.eq_nil_or_concat post with hp | ⟨q, z, hp⟩
  · subst hp
    have h2 : (log ++ List.replicate n DmaEvent.answeredBusy ++ [DmaEvent.answeredIdle]) ++
        [DmaEvent.started slot count] = pre ++ [DmaEvent.started a b] := by
      rw [← heq]; simp [flushRound]
    have h3 := List.append_inj_left' h2 rfl
    rw [← h3]
    simp
  · subst hp
    have h2 : (log ++ List.replicate n DmaEvent.answeredBusy ++ [DmaEvent.answeredIdle]) ++
        [DmaEvent.started slot count] = (pre ++ DmaEvent.started a b :: q) ++ [z] := by
      rw [List.concat_eq_append] at heq
      rw [List.append_assoc pre, List.cons_append, ← heq]; simp [flushRound]
    exact h1 pre a b q (List.append_inj_left' h2 rfl)

theorem startedOf_append (a b : List DmaEvent) :
    startedOf (a ++ b) = startedOf a ++ startedOf b := by
  induction a with
  | nil => rfl
  | cons x a ih => cases x <;> simp [startedOf, ih]

theorem startedOf_flushRound (n slot count : Nat) :
    startedOf (flushRound n slot count) = [(slot, count)] := by
  unfold flushRound
  rw [startedOf_append]
  have h : startedOf (List.replicate n DmaEvent.answeredBusy) = [] := by
    induction n with
    | zero => rfl
    | succ n ih => rw [List.replicate_succ]; simpa [startedOf] using ih
  rw [h]
  rfl

theorem dmaLog_step (e : Env) (o : Op) (s : State) (h : WF s)
    (h1 : StartsAfterIdle s.dmaLog)
    (h2 : startedOf s.dmaLog = s.sent.map (fun t => (t.slot, t.count))) :
    StartsAfterIdle (step e o s).dmaLog ∧
      startedOf (step e o s).dmaLog = (step e o s).sent.map (fun t => (t.slot, t.count)) := by
  cases o with
  | readClock => exact ⟨h1, h2⟩
  | append c =>
    show StartsAfterIdle (logByteNoStuff e c s).dmaLog ∧
      startedOf (logByteNoStuff e c s).dmaLog =
        (logByteNoStuff e c s).sent.map (fun t => (t.slot, t.count))
    have hlen : s.logLen < 512 := by have := h.2; simpa [LOG_BUFFER_LEN] using this
    rcases logByteNoStuff_dmaLog e c s hlen with ⟨a1, a2⟩ | ⟨a1, a2⟩
    · rw [a1, a2]; exact ⟨h1, h2⟩
    · rw [a1, a2]
      refine ⟨StartsAfterIdle_round _ _ _ _ h1, ?_⟩
      rw [startedOf_append, startedOf_flushRound, h2, List.map_append]
      rfl

theorem dmaLog_runOps (e : Env) (ops : List Op) (s : State) (h : WF s)
    (h1 : StartsAfterIdle s.dmaLog)
    (h2 : startedOf s.dmaLog = s.sent.map (fun t => (t.slot, t.count))) :
    StartsAfterIdle (runOps e ops s).dmaLog ∧
      startedOf (runOps e ops s).dmaLog =
        (runOps e ops s).sent.map (fun t => (t.slot, t.count)) := by
  induction ops generalizing s with
  | nil => exact ⟨h1, h2⟩
  | cons o ops ih =>
    obtain ⟨g1, g2⟩ := dmaLog_step e o s h h1 h2
    exact ih _ (WF_step e o s h) g1 g2

theorem logByteNoStuff_polls (e : Env) (c : Nat) (s : State) (hlen : s.logLen < 512) :
    ((logByteNoStuff e c s).sent ≠ s.sent →
      (logByteNoStuff e c s).polls = s.polls + e.busyPolls s.sent.length + 1) ∧
    ((logByteNoStuff e c s).sent = s.sent → (logByteNoStuff e c s).polls = s.polls) := by
  have hgrow : ∀ tx : Tx, s.sent ++ [tx] ≠ s.sent := by
    intro tx heq
    have := congrArg List.length heq
    simp at this
  by_cases hfull : s.logLen + 1 = 512
  · rw [logByteNoStuff_full e c s hfull, flush_polls, flush_sent]
    exact ⟨fun _ => rfl, fun h => absurd h (hgrow _)⟩
  · by_cases hel : sub32 (e.clock s.ticks) s.lastLogMillis > MAX_LOG_INTERVAL_MS
    · rw [logByteNoStuff_timeout e c s (by omega) hel, flush_polls, flush_sent]
      exact ⟨fun _ => rfl, fun h => absurd h (hgrow _)⟩
    · rw [logByteNoStuff_noflush e c s (by omega) (by omega)]
      exact ⟨fun h => absurd rfl h, fun _ => rfl⟩

/-- A flush by time under a transmitter found busy twice: the log of DMA
interactions is two busy answers, the idle answer, then the start. -/
theorem dmaLog_example :
    (logByteNoStuff busyEnv 0x11 init).dmaLog =
      [DmaEvent.answeredBusy, DmaEvent.answeredBusy, DmaEvent.answeredIdle,
        DmaEvent.started 0 1] := by
  decide

/-- C13 (buffer ownership): take the transmitter to hold the slot of the most
recently started transfer.  Every sequence of logging calls is a sequence of
calls of `logByteNoStuff` and clock readings; in every state reached from the
initial state by logging calls, and in every state in which `logByteNoStuff`
is entered on the way, the slot held by the transmitter differs from the
active slot, so the byte stored by `logByteNoStuff` leaves every cell of the
held slot unchanged.  A transfer is started only after the transmitter has
reported not busy: in the log of the interactions with the DMA engine, in the
order they were made, whatever precedes the start of a transfer ends with an
idle answer of `dma_channel_is_busy`; the starts in the log are exactly the
transfers handed over; a call of `logByteNoStuff` that starts a transfer adds
to the log the busy answers, then the idle answer, then the start, and polls
once more than the busy answers, while a call that starts none has no
interaction with the engine. -/
theorem C13_buffer_ownership (e : Env) :
    (∀ calls : List Call, ∃ ops, execAll e calls init = runOps e ops init) ∧
    (∀ (calls : List Call) (k : Nat), heldSlot (execAll e calls init) = some k →
      k ≠ (execAll e calls init).logWritingBuffer) ∧
    (∀ (ops : List Op) (c k : Nat), heldSlot (runOps e ops init) = some k →
      k ≠ (runOps e ops init).logWritingBuffer ∧
      ∀ i, (logByteNoStuff e c (runOps e ops init)).logBuffer k i =
        (runOps e ops init).logBuffer k i) ∧
    (∀ (ops : List Op) (c : Nat),
      ((logByteNoStuff e c (runOps e ops init)).sent ≠ (runOps e ops init).sent →
        (logByteNoStuff e c (runOps e ops init)).polls =
          (runOps e ops init).polls + e.busyPolls (runOps e ops init).sent.length + 1) ∧
      ((logByteNoStuff e c (runOps e ops init)).sent = (runOps e ops init).sent →
        (logByteNoStuff e c (runOps e ops init)).polls = (runOps e ops init).polls)) ∧
    (∀ (ops : List Op) (pre : List DmaEvent) (slot count : Nat) (post : List DmaEvent),
      (runOps e ops init).dmaLog = pre ++ DmaEvent.started slot count :: post →
        pre.getLast? = some DmaEvent.answeredIdle) ∧
    (∀ ops : List Op, startedOf (runOps e ops init).dmaLog =
      (runOps e ops init).sent.map (fun t => (t.slot, t.count))) ∧
    (∀ (ops : List Op) (c : Nat),
      ((logByteNoStuff e c (runOps e ops init)).sent ≠ (runOps e ops init).sent →
        (logByteNoStuff e c (runOps e ops init)).dmaLog =
          (runOps e ops init).dmaLog ++
            (List.replicate (e.busyPolls (runOps e ops init).sent.length)
                DmaEvent.answeredBusy ++
              [DmaEvent.answeredIdle,
                DmaEvent.started (runOps e ops init).logWritingBuffer
                  ((runOps e ops init).logLen + 1)])) ∧
      ((logByteNoStuff e c (runOps e ops init)).sent = (runOps e ops init).sent →
        (logByteNoStuff e c (runOps e ops init)).dmaLog = (runOps e ops init).dmaLog)) := by
  have hlog := fun ops => dmaLog_runOps e ops init WF_init StartsAfterIdle_nil rfl
  refine ⟨fun calls => execAll_isRun e calls init, ?_, ?_, ?_,
    fun ops => (hlog ops).1, fun ops => (hlog ops).2, ?_⟩
  · intro calls k hk
    obtain ⟨ops, h⟩ := execAll_isRun e calls init
    rw [h] at hk ⊢
    exact owner_runOps e ops init WF_init owner_init k hk
  · intro ops c k hk
    have hne := owner_runOps e ops init WF_init owner_init k hk
    refine ⟨hne, fun i => ?_⟩
    rw [logByteNoStuff_logBuffer]
    simp only [writeCell]
    rw [if_neg (fun h => hne h.1)]
  · intro ops c
    have hwf := WF_runOps e ops init WF_init
    exact logByteNoStuff_polls e c _ (by have := hwf.2; simpa [LOG_BUFFER_LEN] using this)
  · intro ops c
    have hwf := WF_runOps e ops init WF_init
    have hlen : (runOps e ops init).logLen < 512 := by
      have := hwf.2; simpa [LOG_BUFFER_LEN] using this
    have hgrow : ∀ tx : Tx, (runOps e ops init).sent ++ [tx] ≠ (runOps e ops init).sent := by
      intro tx heq
      have := congrArg List.length heq
      simp at this
    rcases logByteNoStuff_dmaLog e c _ hlen with ⟨a1, a2⟩ | ⟨a1, a2⟩
    · exact ⟨fun h => absurd a1 h, fun _ => a2⟩
    · exact ⟨fun _ => a2, fun h => absurd (a1.symm.trans h) (hgrow _)⟩

/-- C14 (cursor bounds): in every state reached from the initial state by any
sequence of logging calls under any clock, the active slot index is 0 or 1
and the cursor is at most 511.  Every sequence of logging calls is a sequence
of calls of `logByteNoStuff` and clock readings, and whenever `logByteNoStuff`
is entered on the way, its store goes to the cell at the cursor of the active
slot with slot index below 2 and cursor below 512, the cursor after the
increment is at most the capacity, the state it leaves has again slot index
below 2 and cursor at most 511, and if the active slot has changed the cursor
is 0. -/
theorem C14_cursor_bounds (e : Env) :
    (∀ calls : List Call, (execAll e calls init).logWritingBuffer < 2 ∧
      (execAll e calls init).logLen ≤ 511) ∧
    (∀ calls : List Call, ∃ ops, execAll e calls init = runOps e ops init) ∧
    (∀ (ops : List Op) (c : Nat),
      (runOps e ops init).logWritingBuffer < 2 ∧
      (runOps e ops init).logLen < LOG_BUFFER_LEN ∧
      (logByteNoStuff e c (runOps e ops init)).logBuffer =
        writeCell (runOps e ops init).logBuffer (runOps e ops init).logWritingBuffer
          (runOps e ops init).logLen (c % 256) ∧
      (runOps e ops init).logLen + 1 ≤ LOG_BUFFER_LEN ∧
      (logByteNoStuff e c (runOps e ops init)).logWritingBuffer < 2 ∧
      (logByteNoStuff e c (runOps e ops init)).logLen ≤ 511 ∧
      ((logByteNoStuff e c (runOps e ops init)).logWritingBuffer ≠
          (runOps e ops init).logWritingBuffer →
        (logByteNoStuff e c (runOps e ops init)).logLen = 0)) := by
  refine ⟨?_, fun calls => execAll_isRun e calls init, ?_⟩
  · intro calls
    obtain ⟨ops, h⟩ := execAll_isRun e calls init
    rw [h]
    have hwf := WF_runOps e ops init WF_init
    have := hwf.2
    simp only [LOG_BUFFER_LEN] at this
    exact ⟨hwf.1, by omega⟩
  · intro ops c
    have hwf := WF_runOps e ops init WF_init
    have hwf' := (logByteNoStuff_stream e c _ hwf).2
    have h1 := hwf.2
    have h2 := hwf'.2
    simp only [LOG_BUFFER_LEN] at h1 h2 ⊢
    refine ⟨hwf.1, h1, logByteNoStuff_logBuffer e c _, by omega, hwf'.1, by omega, ?_⟩
    intro hne
    rcases logByteNoStuff_cases e c _ hwf with ⟨-, g2, -⟩ | ⟨-, -, g3, -⟩
    · exact absurd g2 hne
    · exact g3

end Logger
